import Mathlib

/-!
Shallow embedding of the parallel block-device transfer engine in
`accelerated-backup/accelerated_io.go`, together with proofs of the
specification's claims about it.

Bytes are modelled as natural numbers (their values are opaque to the
engine), a device is a `List` of bytes, and the two pipelines are modelled
as follows:

* the read path's task-generation loop, read workers and reorder/emit loop
  become pure functions (`genTasksFuel`, `readWorkerResult`, `runEmit`);
  the nondeterministic completion order of the workers is captured by
  quantifying over all permutations of the produced result list, which
  subsumes every worker count ≥ 1;
* the write path (driver loop interleaved with write workers over a shared
  task queue, device and counter) becomes a small-step transition relation
  `WStep` with reachability `WReach`.
-/

namespace AcceleratedBackup

/-- Device contents and payloads are byte lists; the engine never inspects
byte values, so bytes are bare naturals. -/
abbrev Byte := Nat

/-- `Task` (accelerated_io.go lines 15-20): one read task. -/
structure Task where
  index : Nat
  offset : Nat
  size : Nat
  deriving DecidableEq, Repr

/-- `Result` (lines 22-27): outcome of one read task; `err` records whether
the worker saw a non-EOF error. -/
structure Result where
  index : Nat
  data : List Byte
  err : Bool
  deriving DecidableEq, Repr

/-- `WriteTask` (lines 29-34): one write operation. -/
structure WriteTask where
  index : Nat
  offset : Nat
  data : List Byte
  deriving DecidableEq, Repr

/-- One round of the task-generation loop of `readBlockDevice`
(lines 146-159), with explicit fuel bounding the number of loop
iterations; `none` means the loop does not finish within `fuel`
iterations.  The loop body computes `size := blockSize`, clamps it at the
end of the device, sends the task and advances `offset` and `index`. -/
def genTasksFuel : Nat → Nat → Nat → Nat → Nat → Option (List Task)
  | 0, totalSize, _, offset, _ =>
    if offset < totalSize then none else some []
  | fuel + 1, totalSize, blockSize, offset, index =>
    if offset < totalSize then
      let size := if totalSize < offset + blockSize then totalSize - offset else blockSize
      (genTasksFuel fuel totalSize blockSize (offset + size) (index + 1)).map
        (fun ts => { index := index, offset := offset, size := size } :: ts)
    else
      some []

/-- The task list produced for a device of probed size `totalSize`: each
iteration emits one task and (for a positive block size) advances the
offset by at least one byte, so `totalSize` iterations always suffice. -/
def genTasks (totalSize blockSize : Nat) : Option (List Task) :=
  genTasksFuel totalSize totalSize blockSize 0 0

/-- Outcome of one positioned read (`file.ReadAt`): full success, a short
read that hit end-of-stream, or any other error. -/
inductive ReadOutcome where
  | success (bytes : List Byte)
  | eofShort (bytes : List Byte)
  | failure
  deriving DecidableEq, Repr

/-- `ReadAt` against a concrete in-memory device: it returns the bytes
available at `offset`, with the end-of-stream outcome exactly when fewer
than `size` bytes were available. -/
def deviceReadAt (device : List Byte) (offset size : Nat) : ReadOutcome :=
  let bytes := (device.drop offset).take size
  if bytes.length < size then .eofShort bytes else .success bytes

/-- Body of `readWorker` (lines 59-69) for one task: a non-EOF error yields
an error `Result` (`buf[:n]` is never attached there); otherwise the result
carries exactly the bytes obtained, whether or not EOF was hit. -/
def readWorkerResult (task : Task) (outcome : ReadOutcome) : Result :=
  match outcome with
  | .failure => { index := task.index, data := [], err := true }
  | .success bytes => { index := task.index, data := bytes, err := false }
  | .eofShort bytes => { index := task.index, data := bytes, err := false }

/-- The payload a correct read of task `t` obtains from the device. -/
def chunkData (device : List Byte) (t : Task) : List Byte :=
  (device.drop t.offset).take t.size

/-- Size determination in `readBlockDevice`/`writeBlockDevice`
(lines 117-126 and 204-212): the ioctl capacity query (`blockDeviceSize`)
is consulted first; only when it errs is the `Stat` size used; when `Stat`
also errs the process exits. -/
def probeTotalSize (ioctlRes statRes : Option Nat) : Option Nat :=
  match ioctlRes with
  | some size => some size
  | none => statRes

/-- The read pipeline up to and including the chunk reads: a failed probe
aborts before any chunk I/O is issued (`none`); otherwise one positioned
read per generated task is issued, with `fails i` forcing the read of chunk
`i` to fail (modelling an injected I/O error). -/
def readPipelineResults (ioctlRes statRes : Option Nat) (device : List Byte)
    (blockSize : Nat) (fails : Nat → Bool) : Option (List Result) :=
  match probeTotalSize ioctlRes statRes with
  | none => none
  | some totalSize =>
    (genTasks totalSize blockSize).map
      (List.map (fun t =>
        if fails t.index then readWorkerResult t .failure
        else readWorkerResult t (deviceReadAt device t.offset t.size)))

/-- The results the worker pool produces for a device whose probed size is
its actual length (the faithful scenario). -/
def canonResults (device : List Byte) (blockSize : Nat) (fails : Nat → Bool) :
    Option (List Result) :=
  readPipelineResults (some device.length) none device blockSize fails

/-- An execution without injected read failures. -/
def noFail : Nat → Bool := fun _ => false

/-- Lookup in the reorder holding map (Go `data, ok := buffer[expected]`). -/
def lookupB (k : Nat) : List (Nat × List Byte) → Option (List Byte)
  | [] => none
  | (k', v) :: rest => if k' = k then some v else lookupB k rest

/-- Deletion from the holding map (Go `delete(buffer, expected)`). -/
def eraseB (k : Nat) : List (Nat × List Byte) → List (Nat × List Byte)
  | [] => []
  | (k', v) :: rest => if k' = k then eraseB k rest else (k', v) :: eraseB k rest

/-- Insertion (Go `buffer[res.index] = res.data`, an overwriting update). -/
def insertB (k : Nat) (v : List Byte) (buf : List (Nat × List Byte)) :
    List (Nat × List Byte) :=
  (k, v) :: eraseB k buf

/-- State of the reorder/emit loop of `readBlockDevice` (lines 161-193).
`stream` holds the bytes that actually reached standard output, `emitted`
the (index, payload) pairs in emission order, `counter` the shared
`bytesRead` counter, `attempts` the number of `os.Stdout.Write` calls made
so far, and `aborted` whether `os.Exit(1)` was reached. -/
structure EmitState where
  expected : Nat
  buffer : List (Nat × List Byte)
  stream : List Byte
  emitted : List (Nat × List Byte)
  counter : Nat
  attempts : Nat
  aborted : Bool
  deriving DecidableEq, Repr

/-- Initial reorder state (`expected := 0`, empty map, zero counter). -/
def emitInit : EmitState := ⟨0, [], [], [], 0, 0, false⟩

/-- One emission: `os.Stdout.Write(data)` with both return values discarded
(the bytes reach the stream only if the write succeeds, which the code never
checks), then the atomic add to `bytesRead`, then `expected++`. -/
def emitData (stdoutOk : Nat → Bool) (s : EmitState) (d : List Byte) : EmitState :=
  { s with
    stream := s.stream ++ (if stdoutOk s.attempts then d else []),
    attempts := s.attempts + 1,
    counter := s.counter + d.length,
    emitted := s.emitted ++ [(s.expected, d)],
    expected := s.expected + 1 }

/-- The inner drain loop of the reorder stage (lines 178-187): while the
holding map has an entry for `expected`, emit it, delete it and advance. -/
def drainLoop (stdoutOk : Nat → Bool) (s : EmitState) : EmitState :=
  match h : lookupB s.expected s.buffer with
  | some d =>
    drainLoop stdoutOk
      (emitData stdoutOk { s with buffer := eraseB s.expected s.buffer } d)
  | none => s
termination_by s.buffer.length
decreasing_by
  simp only [emitData]
  have hle : ∀ (k : Nat) (buf : List (Nat × List Byte)),
      (eraseB k buf).length ≤ buf.length := by
    intro k buf
    induction buf with
    | nil => simp [eraseB]
    | cons p rest ih =>
      by_cases hp : p.1 = k <;> simp [eraseB, hp] <;> omega
  have hlt : ∀ (k : Nat) (buf : List (Nat × List Byte)) (d : List Byte),
      lookupB k buf = some d → (eraseB k buf).length < buf.length := by
    intro k buf d hl
    induction buf with
    | nil => simp [lookupB] at hl
    | cons p rest ih =>
      by_cases hp : p.1 = k
      · simp only [eraseB, hp, if_pos]
        exact Nat.lt_succ_of_le (hle k rest)
      · simp only [lookupB, hp, if_neg, not_false_iff] at hl
        simp only [eraseB, hp, if_neg, not_false_iff, List.length_cons]
        exact Nat.succ_lt_succ (ih hl)
  exact hlt _ _ _ h

/-- The reorder loop body for one received result (lines 169-191): an error
result terminates the process (`os.Exit(1)`, handled by the caller); the
result for the expected index is emitted and the holding map drained; any
other result is held in the map. -/
def processResult (stdoutOk : Nat → Bool) (s : EmitState) (r : Result) : EmitState :=
  if r.index = s.expected then
    drainLoop stdoutOk (emitData stdoutOk s r.data)
  else
    { s with buffer := insertB r.index r.data s.buffer }

/-- The reorder/emit stage consuming a list of results in arrival order;
an error result aborts the whole pipeline immediately (lines 170-173). -/
def runEmit (stdoutOk : Nat → Bool) (s : EmitState) : List Result → EmitState
  | [] => s
  | r :: rest =>
    if r.err then { s with aborted := true }
    else runEmit stdoutOk (processResult stdoutOk s r) rest

/-- `stdout` that accepts every write. -/
def stdoutAlwaysOk : Nat → Bool := fun _ => true

/-- `stdout` that fails every write (for instance a closed pipe). -/
def stdoutNeverOk : Nat → Bool := fun _ => false

/-- `WriteAt` on an in-memory device: splice `data` in at `offset`. -/
def writeAt (device : List Byte) (data : List Byte) (offset : Nat) : List Byte :=
  device.take offset ++ data ++ device.drop (offset + data.length)

/-- Folding a sequence of positioned writes over a device, in the order the
workers happen to perform them. -/
def applyWrites (ts : List WriteTask) (device : List Byte) : List Byte :=
  ts.foldl (fun dv t => writeAt dv t.data t.offset) device

/-- State of one run of `writeBlockDevice` (lines 196-251): the unread
remainder of stdin, the driver's `index` and `offset`, the shared
`bytesWritten` counter, the queue of submitted-but-unperformed write units,
the units already written (in completion order), the device and whether the
driver loop has finished (`close(tasks)` reached). -/
structure WState where
  input : List Byte
  index : Nat
  offset : Nat
  counter : Nat
  queue : List WriteTask
  performed : List WriteTask
  device : List Byte
  inputClosed : Bool
  deriving DecidableEq, Repr

/-- Initial write-pipeline state for a given stdin content and device. -/
def writeInit (stdin0 device0 : List Byte) : WState :=
  ⟨stdin0, 0, 0, 0, [], [], device0, false⟩

/-- Interleaved small-step semantics of the write pipeline.  The three
driver steps are one iteration of the loop at lines 229-246 (`io.ReadFull`
returns EOF on an empty source, `ErrUnexpectedEOF` on a short final read,
and no error on a full read — including a zero-length read when
`blockSize = 0`); each enqueues the unit and adds to the counter.  The
worker step is one iteration of `writeWorker` (lines 72-85): it removes any
queued unit (dequeue order is FIFO, but several workers run concurrently, so
the positioned writes may land in any order; picking an arbitrary queued
unit covers every such interleaving) and performs the positioned write,
leaving the counter untouched. -/
inductive WStep (blockSize : Nat) : WState → WState → Prop
  | driverEOF (s : WState) (h1 : s.inputClosed = false) (h2 : s.input = [])
      (h3 : 0 < blockSize) :
      WStep blockSize s { s with inputClosed := true }
  | driverShort (s : WState) (h1 : s.inputClosed = false)
      (h2 : 0 < s.input.length) (h3 : s.input.length < blockSize) :
      WStep blockSize s
        { s with
          queue := s.queue ++ [⟨s.index, s.offset, s.input⟩],
          counter := s.counter + s.input.length,
          input := [],
          inputClosed := true }
  | driverFull (s : WState) (h1 : s.inputClosed = false)
      (h2 : blockSize ≤ s.input.length) :
      WStep blockSize s
        { s with
          queue := s.queue ++ [⟨s.index, s.offset, s.input.take blockSize⟩],
          counter := s.counter + blockSize,
          input := s.input.drop blockSize,
          offset := s.offset + blockSize,
          index := s.index + 1 }
  | worker (s : WState) (t : WriteTask) (h : t ∈ s.queue) :
      WStep blockSize s
        { s with
          queue := s.queue.erase t,
          performed := s.performed ++ [t],
          device := writeAt s.device t.data t.offset }

/-- Reachability for the write pipeline. -/
inductive WReach (blockSize : Nat) (s0 : WState) : WState → Prop
  | refl : WReach blockSize s0 s0
  | tail {s s' : WState} : WReach blockSize s0 s → WStep blockSize s s' →
      WReach blockSize s0 s'

/-- The pipeline has finished: the driver closed the task channel and every
queued unit has been written (`wg.Wait()` returned). -/
def WDone (s : WState) : Prop := s.inputClosed = true ∧ s.queue = []

/-- The sequence of write units the driver loop (lines 229-246) produces
from a given stdin content, abstracting away the interleaving with the
workers; `none` marks the divergent `blockSize = 0` case, in which the
driver loop never terminates. -/
def splitStdin (blockSize : Nat) : List Byte → Nat → Nat → Option (List WriteTask)
  | [], _, _ => some []
  | input@(_ :: _), index, offset =>
    if input.length < blockSize then
      some [⟨index, offset, input⟩]
    else if blockSize = 0 then
      none
    else
      (splitStdin blockSize (input.drop blockSize) (index + 1) (offset + blockSize)).map
        (fun ts => ⟨index, offset, input.take blockSize⟩ :: ts)
termination_by input _ _ => input.length
decreasing_by
  rename_i heq hlt h0
  subst heq
  simp only [List.length_drop, namedPattern, List.length_cons]
  omega

/-- Outcomes of the flag handling in `main` (lines 253-278). -/
inductive MainAction where
  | usageNoDevice
  | runRead
  | runWrite
  | usageBadMode
  deriving DecidableEq, Repr

/-- Flag handling in `main` (lines 253-278): the device path must be
non-empty and the mode must be `read` or `write`; `blockSize` and
`workers` are accepted unexamined on every path. -/
def mainDispatch (devicePath mode : String) (blockSize workers : Int) : MainAction :=
  if devicePath = "" then .usageNoDevice
  else if mode = "read" then .runRead
  else if mode = "write" then .runWrite
  else .usageBadMode

/-! ### Derived specification predicates (internal proof vocabulary) -/

/-- `TileSpec S B offset idx ts` records exactly what one unfolding of the
task-generation loop guarantees: each task carries the running index and
offset, its size is the loop's clamped block size, and the remaining tasks
tile the rest of `[offset, S)`; the loop exits exactly at `offset = S`. -/
def TileSpec (S B : Nat) : Nat → Nat → List Task → Prop
  | offset, _, [] => offset = S
  | offset, idx, t :: rest =>
    t.index = idx ∧ t.offset = offset ∧
    t.size = (if S < offset + B then S - offset else B) ∧ 0 < t.size ∧
    TileSpec S B (offset + t.size) (idx + 1) rest

/-- The payload of the `i`-th chunk of a device, given the task list. -/
def taskData (device : List Byte) (ts : List Task) (i : Nat) : List Byte :=
  ((ts[i]?).map (chunkData device)).getD []

/-- Driver-progress invariant of the write pipeline: the units handed to
the worker pool so far (`queue ++ performed`, as a multiset), together with
the units the driver loop will still produce from the remaining input, are
exactly the chunking of the full original stdin content; once the driver
has closed the task channel nothing remains to produce. -/
def WTasksInv (B : Nat) (stdin0 : List Byte) (s : WState) : Prop :=
  ∃ future, splitStdin B s.input s.index s.offset = some future ∧
    (s.inputClosed = true → future = []) ∧
    ∃ done, splitStdin B stdin0 0 0 = some (done ++ future) ∧
      (s.queue ++ s.performed).Perm done

/-- Invariant of the reorder/emit loop between two received results.
`P i` holds exactly for the indices whose results have been received so
far and `data` gives each chunk's correct payload.  Held payloads are
correct and strictly ahead of `expected`; everything below `expected` has
been received; every received index has been emitted or is held; the
emissions so far are exactly chunks `0 .. expected - 1` in order; and the
shared byte counter equals the emitted payload lengths. -/
def EmitInv (data : Nat → List Byte) (P : Nat → Prop) (s : EmitState) : Prop :=
  (∀ p ∈ s.buffer, p.2 = data p.1 ∧ s.expected < p.1 ∧ P p.1) ∧
  (s.buffer.map Prod.fst).Nodup ∧
  (∀ i, i < s.expected → P i) ∧
  (∀ i, P i → i < s.expected ∨ i ∈ s.buffer.map Prod.fst) ∧
  s.emitted = (List.range s.expected).map (fun i => (i, data i)) ∧
  s.counter = ((List.range s.expected).map (fun i => (data i).length)).sum ∧
  s.attempts = s.expected ∧
  s.aborted = false

/-- Equality of every reorder-loop component except the bytes that actually
reached stdout: the loop discards the results of `os.Stdout.Write`, so none
of these components can depend on stdout's behaviour. -/
def SameCore (s t : EmitState) : Prop :=
  s.expected = t.expected ∧ s.buffer = t.buffer ∧ s.emitted = t.emitted ∧
  s.counter = t.counter ∧ s.attempts = t.attempts ∧ s.aborted = t.aborted

/-- Invariant for the fail-fast argument: when no successful result for
chunk `f` can ever arrive (its read failed), the emit cursor never passes
`f`, index `f` is never held in the map, and every emitted index stays
strictly below `f`. -/
def FailInv (f : Nat) (s : EmitState) : Prop :=
  s.expected ≤ f ∧ (∀ p ∈ s.buffer, p.1 ≠ f) ∧ (∀ pr ∈ s.emitted, pr.1 < f)

/-- Variant of `EmitInv` with the weaker bound `expected ≤ key`, which is
the invariant holding while the inner drain loop runs. -/
def DrainInv (data : Nat → List Byte) (P : Nat → Prop) (s : EmitState) : Prop :=
  (∀ p ∈ s.buffer, p.2 = data p.1 ∧ s.expected ≤ p.1 ∧ P p.1) ∧
  (s.buffer.map Prod.fst).Nodup ∧
  (∀ i, i < s.expected → P i) ∧
  (∀ i, P i → i < s.expected ∨ i ∈ s.buffer.map Prod.fst) ∧
  s.emitted = (List.range s.expected).map (fun i => (i, data i)) ∧
  s.counter = ((List.range s.expected).map (fun i => (data i).length)).sum ∧
  s.attempts = s.expected ∧
  s.aborted = false

/-! ### Task sequencer lemmas -/

theorem genTasksFuel_spec {B : Nat} (hB : 1 ≤ B) (S : Nat) :
    ∀ (fuel offset idx : Nat), offset ≤ S → S - offset ≤ fuel →
      ∃ ts, genTasksFuel fuel S B offset idx = some ts ∧ TileSpec S B offset idx ts := by
  intro fuel
  induction fuel with
  | zero =>
    intro offset idx hle hfuel
    have hoff : offset = S := by omega
    subst hoff
    exact ⟨[], by simp [genTasksFuel], rfl⟩
  | succ n ih =>
    intro offset idx hle hfuel
    by_cases hlt : offset < S
    · have hpos : 0 < (if S < offset + B then S - offset else B) := by
        split <;> omega
      have hoffle : offset + (if S < offset + B then S - offset else B) ≤ S := by
        split <;> omega
      have hfuel' : S - (offset + (if S < offset + B then S - offset else B)) ≤ n := by
        omega
      obtain ⟨ts, hts, htile⟩ := ih _ (idx + 1) hoffle hfuel'
      refine ⟨⟨idx, offset, if S < offset + B then S - offset else B⟩ :: ts, ?_, ?_⟩
      · simp only [genTasksFuel, if_pos hlt, hts]
        rfl
      · exact ⟨rfl, rfl, rfl, hpos, htile⟩
    · have hoff : offset = S := by omega
      subst hoff
      exact ⟨[], by simp [genTasksFuel], rfl⟩

theorem genTasks_spec {B : Nat} (hB : 1 ≤ B) (S : Nat) :
    ∃ ts, genTasks S B = some ts ∧ TileSpec S B 0 0 ts :=
  genTasksFuel_spec hB S S 0 0 (Nat.zero_le S) (by omega)

theorem tileSpec_sum {S B : Nat} :
    ∀ {ts : List Task} {offset idx : Nat}, TileSpec S B offset idx ts →
      offset + (ts.map Task.size).sum = S := by
  intro ts
  induction ts with
  | nil =>
    intro offset idx h
    simpa [TileSpec] using h
  | cons t rest ih =>
    intro offset idx h
    obtain ⟨-, -, -, -, htile⟩ := h
    have hrec := ih htile
    simp only [List.map_cons, List.sum_cons]
    omega

theorem tileSpec_indices {S B : Nat} :
    ∀ {ts : List Task} {offset idx : Nat}, TileSpec S B offset idx ts →
      ts.map Task.index = List.range' idx ts.length := by
  intro ts
  induction ts with
  | nil => intro offset idx _; rfl
  | cons t rest ih =>
    intro offset idx h
    obtain ⟨hidx, -, -, -, htile⟩ := h
    simp only [List.map_cons, List.length_cons, List.range'_succ, hidx]
    exact congrArg (idx :: ·) (ih htile)

theorem tileSpec_offset_le {S B : Nat} :
    ∀ {ts : List Task} {offset idx : Nat}, TileSpec S B offset idx ts →
      ∀ t ∈ ts, offset ≤ t.offset := by
  intro ts
  induction ts with
  | nil => intro offset idx _ t ht; cases ht
  | cons u rest ih =>
    intro offset idx h t ht
    obtain ⟨-, hoff, -, hpos, htile⟩ := h
    rcases List.mem_cons.mp ht with rfl | hmem
    · omega
    · have := ih htile t hmem
      omega

theorem tileSpec_offsets_sorted {S B : Nat} :
    ∀ {ts : List Task} {offset idx : Nat}, TileSpec S B offset idx ts →
      (ts.map Task.offset).Pairwise (· < ·) := by
  intro ts
  induction ts with
  | nil => intro offset idx _; exact List.Pairwise.nil
  | cons t rest ih =>
    intro offset idx h
    obtain ⟨-, hoff, -, hpos, htile⟩ := h
    refine List.pairwise_cons.mpr ⟨?_, ih htile⟩
    intro o ho
    obtain ⟨u, hu, rfl⟩ := List.mem_map.mp ho
    have := tileSpec_offset_le htile u hu
    omega

theorem tileSpec_size_bound {S B : Nat} :
    ∀ {ts : List Task} {offset idx : Nat}, TileSpec S B offset idx ts →
      ∀ t ∈ ts, 0 < t.size ∧ t.offset + t.size ≤ S ∧ t.size ≤ B := by
  intro ts
  induction ts with
  | nil => intro offset idx _ t ht; cases ht
  | cons u rest ih =>
    intro offset idx h t ht
    obtain ⟨-, hoff, hsz, hpos, htile⟩ := h
    rcases List.mem_cons.mp ht with rfl | hmem
    · have hsum := tileSpec_sum htile
      refine ⟨hpos, by omega, ?_⟩
      rw [hsz]; split <;> omega
    · exact ih htile t hmem

theorem tileSpec_length {S B : Nat} (hB : 1 ≤ B) :
    ∀ {ts : List Task} {offset idx : Nat}, TileSpec S B offset idx ts →
      ts.length = (S - offset + B - 1) / B := by
  intro ts
  induction ts with
  | nil =>
    intro offset idx h
    have hoff : offset = S := h
    subst hoff
    simp only [List.length_nil, Nat.sub_self, Nat.zero_add]
    exact (Nat.div_eq_of_lt (by omega)).symm
  | cons t rest ih =>
    intro offset idx h
    obtain ⟨-, -, hsz, hpos, htile⟩ := h
    by_cases hc : S < offset + B
    · rw [hsz, if_pos hc] at hpos htile
      have h1 : offset + (S - offset) = S := by omega
      rw [h1] at htile
      have hrec := ih htile
      have h2 : S - S + B - 1 < B := by omega
      have e2 : S - offset + B - 1 = (S - offset - 1) + B := by omega
      have h3 : S - offset - 1 < B := by omega
      rw [List.length_cons, hrec, Nat.div_eq_of_lt h2, e2,
        Nat.add_div_right _ (by omega : 0 < B), Nat.div_eq_of_lt h3]
    · rw [hsz, if_neg hc] at hpos htile
      have hrec := ih htile
      have e1 : S - (offset + B) + B - 1 = (S - offset) - 1 := by omega
      have e2 : S - offset + B - 1 = ((S - offset) - 1) + B := by omega
      rw [List.length_cons, hrec, e1, e2, Nat.add_div_right _ (by omega : 0 < B)]

theorem tileSpec_last {S B : Nat} (hB : 1 ≤ B) :
    ∀ {ts : List Task} {offset idx : Nat} (h : TileSpec S B offset idx ts)
      (hne : ts ≠ []),
      (ts.getLast hne).size = (S - offset) - B * (ts.length - 1) := by
  intro ts
  induction ts with
  | nil => intro offset idx _ hne; exact absurd rfl hne
  | cons t rest ih =>
    intro offset idx h hne
    obtain ⟨-, -, hsz, hpos, htile⟩ := h
    cases rest with
    | nil =>
      have hoff : offset + t.size = S := htile
      simp only [List.getLast_singleton, List.length_cons, List.length_nil]
      omega
    | cons r rest' =>
      have hsum := tileSpec_sum htile
      have hrpos : 0 < (List.map Task.size (r :: rest')).sum := by
        obtain ⟨-, -, -, hr, -⟩ := id htile
        simp only [List.map_cons, List.sum_cons]
        omega
      have hlt2 : offset + t.size < S := by omega
      have htB : t.size = B := by
        by_cases hcase : S < offset + B
        · rw [hsz, if_pos hcase] at hlt2
          omega
        · rw [hsz, if_neg hcase]
      rw [List.getLast_cons (by simp)]
      have hrec := ih htile (by simp)
      rw [hrec, htB]
      have hlen1 : (r :: rest').length - 1 = rest'.length := by simp
      have hlen2 : (t :: r :: rest').length - 1 = rest'.length + 1 := by simp
      rw [hlen1, hlen2, Nat.mul_succ]
      omega

theorem tileSpec_flatten {S B : Nat} (device : List Byte) (hdev : device.length = S) :
    ∀ {ts : List Task} {offset idx : Nat}, TileSpec S B offset idx ts →
      (ts.map (chunkData device)).flatten = device.drop offset := by
  intro ts
  induction ts with
  | nil =>
    intro offset idx h
    have hoff : offset = S := h
    subst hoff
    simp [List.drop_eq_nil_of_le, hdev]
  | cons t rest ih =>
    intro offset idx h
    obtain ⟨-, hoff, -, -, htile⟩ := h
    simp only [List.map_cons, List.flatten_cons]
    rw [ih htile, chunkData, hoff]
    have hdd : device.drop (offset + t.size) = (device.drop offset).drop t.size := by
      rw [List.drop_drop]
      try congr 1
      try omega
    rw [hdd, List.take_append_drop]

theorem tileSpec_get_index {S B : Nat} :
    ∀ {ts : List Task} {offset idx : Nat}, TileSpec S B offset idx ts →
      ∀ (k : Nat) (hk : k < ts.length), ts[k].index = idx + k := by
  intro ts
  induction ts with
  | nil => intro offset idx _ k hk; cases hk
  | cons t rest ih =>
    intro offset idx h k hk
    obtain ⟨hidx, -, -, -, htile⟩ := h
    cases k with
    | zero => simpa using hidx
    | succ m =>
      have hm : m < rest.length := by
        simp only [List.length_cons] at hk
        omega
      have hrec := ih htile m hm
      simp only [List.getElem_cons_succ, hrec]
      omega

/-! ### Holding-map lemmas -/

theorem lookupB_mem {k : Nat} {d : List Byte} :
    ∀ {buf : List (Nat × List Byte)}, lookupB k buf = some d → (k, d) ∈ buf := by
  intro buf
  induction buf with
  | nil => intro h; simp [lookupB] at h
  | cons p rest ih =>
    intro h
    by_cases hp : p.1 = k
    · rw [lookupB, if_pos hp] at h
      cases h
      rw [← hp]
      exact List.mem_cons_self _ _
    · rw [lookupB, if_neg hp] at h
      exact List.mem_cons_of_mem _ (ih h)

theorem lookupB_eq_none {k : Nat} :
    ∀ {buf : List (Nat × List Byte)},
      lookupB k buf = none ↔ ∀ p ∈ buf, p.1 ≠ k := by
  intro buf
  induction buf with
  | nil => simp [lookupB]
  | cons p rest ih =>
    by_cases hp : p.1 = k
    · simp [lookupB, hp]
    · simp [lookupB, hp, ih]

theorem mem_eraseB {k : Nat} {p : Nat × List Byte} :
    ∀ {buf : List (Nat × List Byte)},
      p ∈ eraseB k buf ↔ p ∈ buf ∧ p.1 ≠ k := by
  intro buf
  induction buf with
  | nil => simp [eraseB]
  | cons q rest ih =>
    by_cases hq : q.1 = k
    · rw [eraseB, if_pos hq, ih]
      constructor
      · rintro ⟨hmem, hne⟩
        exact ⟨List.mem_cons_of_mem _ hmem, hne⟩
      · rintro ⟨hmem, hne⟩
        rcases List.mem_cons.mp hmem with rfl | hmem'
        · exact absurd hq hne
        · exact ⟨hmem', hne⟩
    · rw [eraseB, if_neg hq]
      constructor
      · intro hmem
        rcases List.mem_cons.mp hmem with rfl | hmem'
        · exact ⟨List.mem_cons_self _ _, hq⟩
        · obtain ⟨h1, h2⟩ := ih.mp hmem'
          exact ⟨List.mem_cons_of_mem _ h1, h2⟩
      · rintro ⟨hmem, hne⟩
        rcases List.mem_cons.mp hmem with rfl | hmem'
        · exact List.mem_cons_self _ _
        · exact List.mem_cons_of_mem _ (ih.mpr ⟨hmem', hne⟩)

theorem eraseB_sublist (k : Nat) :
    ∀ (buf : List (Nat × List Byte)), (eraseB k buf).Sublist buf := by
  intro buf
  induction buf with
  | nil => simp [eraseB]
  | cons q rest ih =>
    by_cases hq : q.1 = k
    · rw [eraseB, if_pos hq]
      exact ih.cons _
    · rw [eraseB, if_neg hq]
      exact ih.cons₂ _

theorem eraseB_length_le (k : Nat) (buf : List (Nat × List Byte)) :
    (eraseB k buf).length ≤ buf.length :=
  (eraseB_sublist k buf).length_le

theorem lookupB_eraseB_length_lt {k : Nat} {buf : List (Nat × List Byte)}
    {d : List Byte} (h : lookupB k buf = some d) :
    (eraseB k buf).length < buf.length := by
  induction buf with
  | nil => simp [lookupB] at h
  | cons p rest ih =>
    by_cases hp : p.1 = k
    · rw [eraseB, if_pos hp]
      exact Nat.lt_succ_of_le (eraseB_length_le k rest)
    · rw [lookupB, if_neg hp] at h
      rw [eraseB, if_neg hp, List.length_cons, List.length_cons]
      exact Nat.succ_lt_succ (ih h)

theorem mem_map_fst_eraseB {k i : Nat} {buf : List (Nat × List Byte)} :
    i ∈ (eraseB k buf).map Prod.fst ↔ i ∈ buf.map Prod.fst ∧ i ≠ k := by
  constructor
  · intro h
    obtain ⟨p, hp, rfl⟩ := List.mem_map.mp h
    obtain ⟨h1, h2⟩ := mem_eraseB.mp hp
    exact ⟨List.mem_map.mpr ⟨p, h1, rfl⟩, h2⟩
  · rintro ⟨h1, h2⟩
    obtain ⟨p, hp, rfl⟩ := List.mem_map.mp h1
    exact List.mem_map.mpr ⟨p, mem_eraseB.mpr ⟨hp, h2⟩, rfl⟩

/-! ### Drain loop: a generic specification lemma -/

theorem drainLoop_spec (o : Nat → Bool) (P Q : EmitState → Prop)
    (hstep : ∀ s (d : List Byte), lookupB s.expected s.buffer = some d → P s →
      P (emitData o { s with buffer := eraseB s.expected s.buffer } d))
    (hstop : ∀ s, lookupB s.expected s.buffer = none → P s → Q s) :
    ∀ s, P s → Q (drainLoop o s) := by
  have H : ∀ (n : Nat) (s : EmitState), s.buffer.length ≤ n → P s →
      Q (drainLoop o s) := by
    intro n
    induction n with
    | zero =>
      intro s hlen hP
      rw [drainLoop]
      split
      · rename_i d hd
        exfalso
        have hnil : s.buffer = [] := List.length_eq_zero.mp (by omega)
        rw [hnil] at hd
        simp [lookupB] at hd
      · rename_i hd
        exact hstop s hd hP
    | succ n ih =>
      intro s hlen hP
      rw [drainLoop]
      split
      · rename_i d hd
        apply ih
        · have hlt := lookupB_eraseB_length_lt hd
          simp only [emitData]
          omega
        · exact hstep s d hd hP
      · rename_i hd
        exact hstop s hd hP
  exact fun s hP => H s.buffer.length s le_rfl hP

/-! ### Reorder/emit invariant preservation -/

theorem drainInv_step (o : Nat → Bool) (data : Nat → List Byte) (Pr : Nat → Prop) :
    ∀ (s : EmitState) (d : List Byte),
      lookupB s.expected s.buffer = some d → DrainInv data Pr s →
      DrainInv data Pr (emitData o { s with buffer := eraseB s.expected s.buffer } d) := by
  intro s d hd hinv
  obtain ⟨hbuf, hnodup, hbelow, hcover, hemit, hcount, hatt, habort⟩ := hinv
  have hmem := lookupB_mem hd
  obtain ⟨hdata, -, hPe⟩ := hbuf _ hmem
  refine ⟨?_, ?_, ?_, ?_, ?_, ?_, ?_, ?_⟩ <;> simp only [emitData]
  · intro p hp
    obtain ⟨hpb, hpne⟩ := mem_eraseB.mp hp
    obtain ⟨h1, h2, h3⟩ := hbuf p hpb
    exact ⟨h1, by omega, h3⟩
  · exact ((eraseB_sublist s.expected s.buffer).map Prod.fst).nodup hnodup
  · intro i hi
    rcases Nat.lt_succ_iff_lt_or_eq.mp hi with h | rfl
    · exact hbelow i h
    · exact hPe
  · intro i hi
    rcases hcover i hi with h | h
    · exact Or.inl (by omega)
    · by_cases hie : i = s.expected
      · exact Or.inl (by omega)
      · exact Or.inr (mem_map_fst_eraseB.mpr ⟨h, hie⟩)
  · have hdata' : d = data s.expected := hdata
    rw [hemit, List.range_succ, List.map_append, hdata']
    simp
  · have hdata' : d = data s.expected := hdata
    rw [hcount, List.range_succ, List.map_append, List.sum_append, hdata']
    simp
  · rw [hatt]
  · exact habort

theorem drainInv_to_emitInv (data : Nat → List Byte) (Pr : Nat → Prop)
    (s : EmitState) (hd : lookupB s.expected s.buffer = none)
    (hinv : DrainInv data Pr s) : EmitInv data Pr s := by
  obtain ⟨hbuf, hnodup, hbelow, hcover, hemit, hcount, hatt, habort⟩ := hinv
  refine ⟨?_, hnodup, hbelow, hcover, hemit, hcount, hatt, habort⟩
  intro p hp
  obtain ⟨h1, h2, h3⟩ := hbuf p hp
  have hne := (lookupB_eq_none.mp hd) p hp
  exact ⟨h1, by omega, h3⟩

theorem drainLoop_inv (o : Nat → Bool) (data : Nat → List Byte) (Pr : Nat → Prop) :
    ∀ s, DrainInv data Pr s → EmitInv data Pr (drainLoop o s) :=
  drainLoop_spec o (DrainInv data Pr) (EmitInv data Pr)
    (drainInv_step o data Pr) (fun s hd hinv => drainInv_to_emitInv data Pr s hd hinv)

theorem processResult_inv (o : Nat → Bool) {data : Nat → List Byte}
    {Pr : Nat → Prop} {s : EmitState} {r : Result}
    (hinv : EmitInv data Pr s) (hnew : ¬ Pr r.index)
    (hdata : r.data = data r.index) :
    EmitInv data (fun i => i = r.index ∨ Pr i) (processResult o s r) := by
  obtain ⟨hbuf, hnodup, hbelow, hcover, hemit, hcount, hatt, habort⟩ := hinv
  rw [processResult]
  by_cases hidx : r.index = s.expected
  · rw [if_pos hidx]
    apply drainLoop_inv
    refine ⟨?_, ?_, ?_, ?_, ?_, ?_, ?_, ?_⟩ <;> simp only [emitData]
    · intro p hp
      obtain ⟨h1, h2, h3⟩ := hbuf p hp
      exact ⟨h1, by omega, Or.inr h3⟩
    · exact hnodup
    · intro i hi
      rcases Nat.lt_succ_iff_lt_or_eq.mp hi with h | rfl
      · exact Or.inr (hbelow i h)
      · exact Or.inl hidx.symm
    · intro i hi
      rcases hi with rfl | hPr
      · left
        omega
      · rcases hcover i hPr with h | h
        · exact Or.inl (by omega)
        · exact Or.inr h
    · rw [hemit, List.range_succ, List.map_append, hdata, hidx]
      simp
    · rw [hcount, List.range_succ, List.map_append, List.sum_append, hdata, hidx]
      simp
    · rw [hatt]
    · exact habort
  · rw [if_neg hidx]
    have hgt : s.expected < r.index := by
      rcases Nat.lt_trichotomy r.index s.expected with h | h | h
      · exact absurd (hbelow _ h) hnew
      · exact absurd h hidx
      · exact h
    refine ⟨?_, ?_, ?_, ?_, hemit, hcount, hatt, habort⟩
    · intro p hp
      rw [insertB] at hp
      rcases List.mem_cons.mp hp with rfl | hp'
      · exact ⟨hdata, hgt, Or.inl rfl⟩
      · obtain ⟨hpb, hpne⟩ := mem_eraseB.mp hp'
        obtain ⟨h1, h2, h3⟩ := hbuf p hpb
        exact ⟨h1, h2, Or.inr h3⟩
    · rw [insertB, List.map_cons]
      refine List.nodup_cons.mpr ⟨?_, ?_⟩
      · intro hmem
        exact (mem_map_fst_eraseB.mp hmem).2 rfl
      · exact ((eraseB_sublist _ _).map Prod.fst).nodup hnodup
    · intro i hi
      exact Or.inr (hbelow i hi)
    · intro i hi
      rcases hi with rfl | hPr
      · right
        rw [insertB, List.map_cons]
        exact List.mem_cons_self _ _
      · rcases hcover i hPr with h | h
        · exact Or.inl h
        · right
          rw [insertB, List.map_cons]
          by_cases hie : i = r.index
          · subst hie
            exact List.mem_cons_self _ _
          · exact List.mem_cons_of_mem _ (mem_map_fst_eraseB.mpr ⟨h, hie⟩)

theorem emitInv_congr {data : Nat → List Byte} {P Q : Nat → Prop}
    (h : ∀ i, P i ↔ Q i) {s : EmitState}
    (hinv : EmitInv data P s) : EmitInv data Q s := by
  obtain ⟨hbuf, hnodup, hbelow, hcover, hemit, hcount, hatt, habort⟩ := hinv
  refine ⟨?_, hnodup, ?_, ?_, hemit, hcount, hatt, habort⟩
  · intro p hp
    obtain ⟨h1, h2, h3⟩ := hbuf p hp
    exact ⟨h1, h2, (h _).mp h3⟩
  · exact fun i hi => (h i).mp (hbelow i hi)
  · exact fun i hi => hcover i ((h i).mpr hi)

theorem runEmit_inv (o : Nat → Bool) (data : Nat → List Byte) :
    ∀ (rs : List Result) (Pr : Nat → Prop) (s : EmitState),
      EmitInv data Pr s →
      (∀ r ∈ rs, r.err = false ∧ r.data = data r.index ∧ ¬ Pr r.index) →
      (rs.map Result.index).Nodup →
      EmitInv data (fun i => i ∈ rs.map Result.index ∨ Pr i) (runEmit o s rs) := by
  intro rs
  induction rs with
  | nil =>
    intro Pr s hinv _ _
    rw [runEmit]
    exact emitInv_congr (fun i => by simp) hinv
  | cons r rest ih =>
    intro Pr s hinv hok hnodup
    obtain ⟨herr, hdata, hnew⟩ := hok r (List.mem_cons_self _ _)
    rw [runEmit, herr]
    rw [if_neg (by simp)]
    have hstep := processResult_inv o hinv hnew hdata
    have hnodup2 : (r.index :: rest.map Result.index).Nodup := by
      simpa using hnodup
    have hrest : ∀ r' ∈ rest, r'.err = false ∧ r'.data = data r'.index ∧
        ¬ (r'.index = r.index ∨ Pr r'.index) := by
      intro r' hr'
      obtain ⟨h1, h2, h3⟩ := hok r' (List.mem_cons_of_mem _ hr')
      refine ⟨h1, h2, ?_⟩
      rintro (heq | hPr)
      · have hmem : r.index ∈ rest.map Result.index :=
          List.mem_map.mpr ⟨r', hr', heq⟩
        exact (List.nodup_cons.mp hnodup2).1 hmem
      · exact h3 hPr
    have hres := ih _ _ hstep hrest (List.nodup_cons.mp hnodup2).2
    apply emitInv_congr _ hres
    intro i
    simp only [List.map_cons, List.mem_cons]
    tauto

theorem runEmit_complete (o : Nat → Bool) (data : Nat → List Byte) (N : Nat)
    (rs : List Result)
    (hidx : ∀ i, i ∈ rs.map Result.index ↔ i < N)
    (hnodup : (rs.map Result.index).Nodup)
    (hok : ∀ r ∈ rs, r.err = false ∧ r.data = data r.index) :
    (runEmit o emitInit rs).expected = N ∧
    (runEmit o emitInit rs).buffer = [] ∧
    (runEmit o emitInit rs).emitted = (List.range N).map (fun i => (i, data i)) ∧
    (runEmit o emitInit rs).counter
      = ((List.range N).map (fun i => (data i).length)).sum ∧
    (runEmit o emitInit rs).aborted = false := by
  have hinit : EmitInv data (fun _ => False) emitInit := by
    refine ⟨?_, ?_, ?_, ?_, rfl, rfl, rfl, rfl⟩ <;> simp [emitInit]
  have hfin := runEmit_inv o data rs _ emitInit hinit
    (fun r hr => ⟨(hok r hr).1, (hok r hr).2, not_false⟩) hnodup
  have hfin2 : EmitInv data (fun i => i < N) (runEmit o emitInit rs) := by
    apply emitInv_congr _ hfin
    intro i
    rw [← hidx i]
    simp
  obtain ⟨hbuf, hnodup2, hbelow, hcover, hemit, hcount, hatt, habort⟩ := hfin2
  have hEN : (runEmit o emitInit rs).expected = N := by
    by_contra hne
    rcases Nat.lt_or_ge (runEmit o emitInit rs).expected N with hlt | hge
    · rcases hcover _ hlt with h | h
      · omega
      · obtain ⟨p, hp, hfst⟩ := List.mem_map.mp h
        obtain ⟨-, h2, -⟩ := hbuf p hp
        omega
    · have hgt : N < (runEmit o emitInit rs).expected := by omega
      exact absurd (hbelow N hgt) (by omega)
  have hbufnil : (runEmit o emitInit rs).buffer = [] := by
    rw [List.eq_nil_iff_forall_not_mem]
    intro p hp
    obtain ⟨-, h2, h3⟩ := hbuf p hp
    omega
  exact ⟨hEN, hbufnil, by rw [hemit, hEN], by rw [hcount, hEN], habort⟩

/-! ### Canonical worker results -/

theorem readWorker_canon (device : List Byte) (t : Task) :
    readWorkerResult t (deviceReadAt device t.offset t.size)
      = ⟨t.index, chunkData device t, false⟩ := by
  rw [deviceReadAt]
  by_cases h : ((device.drop t.offset).take t.size).length < t.size
  · simp only [if_pos h, readWorkerResult, chunkData]
  · simp only [if_neg h, readWorkerResult, chunkData]

theorem canonResults_noFail (device : List Byte) (B : Nat) :
    canonResults device B noFail
      = (genTasks device.length B).map
          (List.map (fun t => ⟨t.index, chunkData device t, false⟩)) := by
  have hf : (fun t => if noFail t.index = true then readWorkerResult t .failure
        else readWorkerResult t (deviceReadAt device t.offset t.size))
      = (fun t => (⟨t.index, chunkData device t, false⟩ : Result)) := by
    funext t
    rw [noFail]
    simp only [Bool.false_eq_true, if_false]
    exact readWorker_canon device t
  rw [canonResults, readPipelineResults]
  simp only [probeTotalSize, hf]

theorem canon_map_index {S B : Nat} {device : List Byte} {ts : List Task}
    (htile : TileSpec S B 0 0 ts) :
    (ts.map (fun t => (⟨t.index, chunkData device t, false⟩ : Result))).map
        Result.index = List.range ts.length := by
  rw [List.map_map]
  have : (Result.index ∘ fun t => (⟨t.index, chunkData device t, false⟩ : Result))
      = Task.index := rfl
  rw [this, tileSpec_indices htile, List.range_eq_range']

theorem canon_mem {S B : Nat} {device : List Byte} {ts : List Task}
    (htile : TileSpec S B 0 0 ts) :
    ∀ r ∈ ts.map (fun t => (⟨t.index, chunkData device t, false⟩ : Result)),
      r.err = false ∧ r.data = taskData device ts r.index := by
  intro r hr
  obtain ⟨t, ht, rfl⟩ := List.mem_map.mp hr
  obtain ⟨k, hk, rfl⟩ := List.mem_iff_getElem.mp ht
  have hki := tileSpec_get_index htile k hk
  refine ⟨rfl, ?_⟩
  simp only [hki, Nat.zero_add, taskData]
  rw [List.getElem?_eq_getElem hk]
  rfl

theorem map_range_taskData (device : List Byte) (ts : List Task) :
    (List.range ts.length).map (taskData device ts) = ts.map (chunkData device) := by
  apply List.ext_getElem
  · simp
  · intro k h1 h2
    simp only [List.getElem_map, List.getElem_range, taskData]
    rw [List.getElem?_eq_getElem (by simpa using h2)]
    rfl

/-! ### Stream contents under an always-succeeding stdout -/

theorem emitData_stream_allOk (s : EmitState) (d : List Byte)
    (hs : s.stream = (s.emitted.map Prod.snd).flatten) :
    (emitData stdoutAlwaysOk s d).stream
      = ((emitData stdoutAlwaysOk s d).emitted.map Prod.snd).flatten := by
  simp only [emitData, stdoutAlwaysOk, if_pos, hs]
  simp

theorem drainLoop_stream_allOk :
    ∀ s, s.stream = (s.emitted.map Prod.snd).flatten →
      (drainLoop stdoutAlwaysOk s).stream
        = ((drainLoop stdoutAlwaysOk s).emitted.map Prod.snd).flatten :=
  drainLoop_spec stdoutAlwaysOk
    (fun t => t.stream = (t.emitted.map Prod.snd).flatten)
    (fun t => t.stream = (t.emitted.map Prod.snd).flatten)
    (fun s d _ hs => emitData_stream_allOk _ d hs)
    (fun _ _ h => h)

theorem processResult_stream_allOk (s : EmitState) (r : Result)
    (hs : s.stream = (s.emitted.map Prod.snd).flatten) :
    (processResult stdoutAlwaysOk s r).stream
      = ((processResult stdoutAlwaysOk s r).emitted.map Prod.snd).flatten := by
  rw [processResult]
  by_cases hidx : r.index = s.expected
  · rw [if_pos hidx]
    exact drainLoop_stream_allOk _ (emitData_stream_allOk s r.data hs)
  · rw [if_neg hidx]
    exact hs

theorem runEmit_stream_allOk :
    ∀ (rs : List Result) (s : EmitState),
      s.stream = (s.emitted.map Prod.snd).flatten →
      (runEmit stdoutAlwaysOk s rs).stream
        = ((runEmit stdoutAlwaysOk s rs).emitted.map Prod.snd).flatten := by
  intro rs
  induction rs with
  | nil => intro s hs; exact hs
  | cons r rest ih =>
    intro s hs
    rw [runEmit]
    by_cases herr : r.err = true
    · rw [if_pos herr]
      exact hs
    · rw [if_neg herr]
      exact ih _ (processResult_stream_allOk s r hs)

theorem tileSpec_get_offset {S B : Nat} :
    ∀ {ts : List Task} {offset idx : Nat}, TileSpec S B offset idx ts →
      ∀ (k : Nat) (hk : k < ts.length),
        ts[k].offset = offset + ((ts.take k).map Task.size).sum := by
  intro ts
  induction ts with
  | nil => intro offset idx _ k hk; cases hk
  | cons t rest ih =>
    intro offset idx h k hk
    obtain ⟨-, hoff, -, -, htile⟩ := h
    cases k with
    | zero => simpa using hoff
    | succ m =>
      have hm : m < rest.length := by
        simp only [List.length_cons] at hk
        omega
      have hrec := ih htile m hm
      simp only [List.getElem_cons_succ, List.take_succ_cons, List.map_cons,
        List.sum_cons, hrec, hoff]
      omega

/-- Claim C3: for every device size `S ≥ 0` and block size `B ≥ 1`, the task
sequencer produces exactly `ceil(S/B)` chunk descriptors, with dense indices
`0 .. N-1`, each offset equal to the sum of the preceding sizes (so offsets
are strictly increasing and the chunks tile `[0, S)` with no overlap and no
gap), the sum of all chunk lengths exactly `S`, and the final chunk's length
`S - B * (count - 1)`. -/
theorem claim_C3_exact_coverage (S B : Nat) (hB : 1 ≤ B) :
    ∃ ts, genTasks S B = some ts ∧
      ts.length = (S + B - 1) / B ∧
      (∀ (k : Nat) (hk : k < ts.length), ts[k].index = k) ∧
      (∀ (k : Nat) (hk : k < ts.length),
        ts[k].offset = ((ts.take k).map Task.size).sum) ∧
      ((ts.map Task.offset).Pairwise (· < ·)) ∧
      (ts.map Task.size).sum = S ∧
      (∀ (hne : ts ≠ []), (ts.getLast hne).size = S - B * (ts.length - 1)) := by
  obtain ⟨ts, hts, htile⟩ := genTasks_spec hB S
  refine ⟨ts, hts, ?_, ?_, ?_, ?_, ?_, ?_⟩
  · have h := tileSpec_length hB htile
    simpa using h
  · intro k hk
    have h := tileSpec_get_index htile k hk
    simpa using h
  · intro k hk
    have h := tileSpec_get_offset htile k hk
    simpa using h
  · exact tileSpec_offsets_sorted htile
  · have h := tileSpec_sum htile
    omega
  · intro hne
    have h := tileSpec_last hB htile hne
    simpa using h

/-- Instantiation of the C3 theorem at `S = 5`, `B = 2`. -/
theorem claim_C3_witness :
    1 ≤ 2 ∧ ∃ ts, genTasks 5 2 = some ts ∧
      ts.length = (5 + 2 - 1) / 2 ∧
      (∀ (k : Nat) (hk : k < ts.length), ts[k].index = k) ∧
      (∀ (k : Nat) (hk : k < ts.length),
        ts[k].offset = ((ts.take k).map Task.size).sum) ∧
      ((ts.map Task.offset).Pairwise (· < ·)) ∧
      (ts.map Task.size).sum = 5 ∧
      (∀ (hne : ts ≠ []), (ts.getLast hne).size = 5 - 2 * (ts.length - 1)) :=
  ⟨by decide, claim_C3_exact_coverage 5 2 (by decide)⟩

/-- Claim C2: for every device content, block size ≥ 1 and every completion
order of the workers' results (an arbitrary permutation of the produced
result list, which subsumes every worker count ≥ 1), the reorder/emit stage
emits each chunk's payload exactly once, in strictly ascending index order
with no gap and no duplication (its emission log equals the canonical
result list projected to (index, payload), whose index column is
`range N`), and the bytes written to the output stream are exactly the
device's bytes in source-offset order. -/
theorem canon_run_facts (device : List Byte) (B : Nat) (hB : 1 ≤ B)
    (crs rs : List Result)
    (hcrs : canonResults device B noFail = some crs)
    (hperm : rs.Perm crs) (o : Nat → Bool) :
    ∃ ts, genTasks device.length B = some ts ∧ TileSpec device.length B 0 0 ts ∧
      crs = ts.map (fun t => ⟨t.index, chunkData device t, false⟩) ∧
      (runEmit o emitInit rs).expected = ts.length ∧
      (runEmit o emitInit rs).buffer = [] ∧
      (runEmit o emitInit rs).emitted
        = (List.range ts.length).map (fun i => (i, taskData device ts i)) ∧
      (runEmit o emitInit rs).counter
        = ((List.range ts.length).map (fun i => (taskData device ts i).length)).sum ∧
      (runEmit o emitInit rs).aborted = false := by
  obtain ⟨ts, hts, htile⟩ := genTasks_spec hB device.length
  have hcrs2 : crs = ts.map (fun t => ⟨t.index, chunkData device t, false⟩) := by
    have h := canonResults_noFail device B
    rw [hcrs, hts] at h
    simpa using h
  subst hcrs2
  have hmapidx := @canon_map_index device.length B device ts htile
  have hpermmap := hperm.map Result.index
  have hidx : ∀ i, i ∈ rs.map Result.index ↔ i < ts.length := by
    intro i
    rw [hpermmap.mem_iff, hmapidx, List.mem_range]
  have hnodup : (rs.map Result.index).Nodup := by
    rw [hpermmap.nodup_iff, hmapidx]
    exact List.nodup_range _
  have hok : ∀ r ∈ rs, r.err = false ∧ r.data = taskData device ts r.index := by
    intro r hr
    exact canon_mem htile r (hperm.mem_iff.mp hr)
  obtain ⟨hexp, hbuf, hemit, hcount, habort⟩ :=
    runEmit_complete o (taskData device ts) ts.length rs hidx hnodup hok
  exact ⟨ts, hts, htile, rfl, hexp, hbuf, hemit, hcount, habort⟩

theorem canon_run_stream (device : List Byte) (B : Nat) (hB : 1 ≤ B)
    (crs rs : List Result)
    (hcrs : canonResults device B noFail = some crs)
    (hperm : rs.Perm crs) :
    (runEmit stdoutAlwaysOk emitInit rs).stream = device := by
  obtain ⟨ts, hts, htile, -, -, -, hemit, -, -⟩ :=
    canon_run_facts device B hB crs rs hcrs hperm stdoutAlwaysOk
  have hstream := runEmit_stream_allOk rs emitInit rfl
  rw [hstream, hemit, List.map_map]
  have hcomp : (Prod.snd ∘ fun i => (i, taskData device ts i))
      = taskData device ts := rfl
  rw [hcomp, map_range_taskData]
  have hflat := tileSpec_flatten device rfl htile
  rw [hflat, List.drop_zero]

theorem claim_C2_strict_ordering (device : List Byte) (B : Nat) (hB : 1 ≤ B)
    (crs rs : List Result)
    (hcrs : canonResults device B noFail = some crs)
    (hperm : rs.Perm crs) :
    (runEmit stdoutAlwaysOk emitInit rs).emitted
        = crs.map (fun r => (r.index, r.data)) ∧
    ((runEmit stdoutAlwaysOk emitInit rs).emitted.map Prod.fst)
        = List.range crs.length ∧
    (runEmit stdoutAlwaysOk emitInit rs).stream = device ∧
    (runEmit stdoutAlwaysOk emitInit rs).aborted = false := by
  obtain ⟨ts, hts, htile, hcrs2, hexp, hbuf, hemit, hcount, habort⟩ :=
    canon_run_facts device B hB crs rs hcrs hperm stdoutAlwaysOk
  have hN : crs.length = ts.length := by rw [hcrs2]; simp
  have hemit2 : (runEmit stdoutAlwaysOk emitInit rs).emitted
      = crs.map (fun r => (r.index, r.data)) := by
    rw [hemit, hcrs2, List.map_map]
    apply List.ext_getElem
    · simp
    · intro k h1 h2
      have hk : k < ts.length := by simpa using h2
      have hki := tileSpec_get_index htile k hk
      simp [Function.comp, taskData, List.getElem?_eq_getElem hk, hki]
  refine ⟨hemit2, ?_, canon_run_stream device B hB crs rs hcrs hperm, habort⟩
  rw [hemit, hN]
  apply List.ext_getElem
  · simp
  · intro k h1 h2
    simp only [List.getElem_map, List.getElem_range]

/-- Witness for C2: device `[1,2,3]`, block size 2, workers completing in
reverse order; the output stream is still the device in order. -/
theorem claim_C2_witness :
    (runEmit stdoutAlwaysOk emitInit
        [⟨1, [3], false⟩, ⟨0, [1, 2], false⟩]).stream = [1, 2, 3] :=
  (claim_C2_strict_ordering [1, 2, 3] 2 (by decide)
    [⟨0, [1, 2], false⟩, ⟨1, [3], false⟩]
    [⟨1, [3], false⟩, ⟨0, [1, 2], false⟩]
    (by decide) (by decide)).2.2.1

/-! ### Fail-fast lemmas -/

theorem runEmit_aborts (o : Nat → Bool) :
    ∀ (rs : List Result) (s : EmitState),
      (∃ r ∈ rs, r.err = true) → (runEmit o s rs).aborted = true := by
  intro rs
  induction rs with
  | nil =>
    intro s h
    obtain ⟨r, hr, -⟩ := h
    cases hr
  | cons r rest ih =>
    intro s h
    rw [runEmit]
    by_cases herr : r.err = true
    · rw [if_pos herr]
    · rw [if_neg herr]
      obtain ⟨r', hr', herr'⟩ := h
      rcases List.mem_cons.mp hr' with rfl | hmem
      · exact absurd herr' herr
      · exact ih _ ⟨r', hmem, herr'⟩

theorem drainLoop_failInv (o : Nat → Bool) (f : Nat) :
    ∀ s, FailInv f s → FailInv f (drainLoop o s) := by
  refine drainLoop_spec o (FailInv f) (FailInv f) ?_ (fun _ _ h => h)
  intro s d hd hinv
  obtain ⟨hexp, hbuf, hemit⟩ := hinv
  have hmem := lookupB_mem hd
  have hne : s.expected ≠ f := hbuf _ hmem
  refine ⟨?_, ?_, ?_⟩ <;> simp only [emitData]
  · omega
  · intro p hp
    exact hbuf p (mem_eraseB.mp hp).1
  · intro pr hpr
    rcases List.mem_append.mp hpr with h | h
    · exact hemit pr h
    · rcases List.mem_singleton.mp h with rfl
      simp only []
      omega

theorem processResult_failInv (o : Nat → Bool) (f : Nat) (s : EmitState)
    (r : Result) (hne : r.index ≠ f) (hinv : FailInv f s) :
    FailInv f (processResult o s r) := by
  obtain ⟨hexp, hbuf, hemit⟩ := hinv
  rw [processResult]
  by_cases hidx : r.index = s.expected
  · rw [if_pos hidx]
    apply drainLoop_failInv
    refine ⟨?_, hbuf, ?_⟩
    · simp only [emitData]
      omega
    · simp only [emitData]
      intro pr hpr
      rcases List.mem_append.mp hpr with h | h
      · exact hemit pr h
      · rcases List.mem_singleton.mp h with rfl
        simp only []
        omega
  · rw [if_neg hidx]
    refine ⟨hexp, ?_, hemit⟩
    intro p hp
    rw [insertB] at hp
    rcases List.mem_cons.mp hp with rfl | hp'
    · exact hne
    · exact hbuf p (mem_eraseB.mp hp').1

theorem runEmit_failInv (o : Nat → Bool) (f : Nat) :
    ∀ (rs : List Result) (s : EmitState), FailInv f s →
      (∀ r ∈ rs, r.err = false → r.index ≠ f) →
      FailInv f (runEmit o s rs) := by
  intro rs
  induction rs with
  | nil => intro s hinv _; exact hinv
  | cons r rest ih =>
    intro s hinv hsafe
    rw [runEmit]
    by_cases herr : r.err = true
    · rw [if_pos herr]
      exact hinv
    · rw [if_neg herr]
      have hne := hsafe r (List.mem_cons_self _ _) (by revert herr; cases r.err <;> simp)
      exact ih _ (processResult_failInv o f s r hne hinv)
        (fun r' hr' => hsafe r' (List.mem_cons_of_mem _ hr'))

theorem canonResults_unfold {device : List Byte} {B : Nat} {fails : Nat → Bool}
    {crs : List Result} {ts : List Task}
    (hts : genTasks device.length B = some ts)
    (hcrs : canonResults device B fails = some crs) :
    crs = ts.map (fun t => if fails t.index then ⟨t.index, [], true⟩
      else ⟨t.index, chunkData device t, false⟩) := by
  rw [canonResults, readPipelineResults] at hcrs
  simp only [probeTotalSize, hts] at hcrs
  have hcrs2 : (ts.map (fun t =>
      if fails t.index = true then readWorkerResult t .failure
      else readWorkerResult t (deviceReadAt device t.offset t.size))) = crs := by
    simpa using hcrs
  rw [← hcrs2]
  apply List.map_congr_left
  intro t _
  by_cases hf : fails t.index = true
  · simp only [hf, if_true, readWorkerResult]
  · simp only [hf, if_false, Bool.false_eq_true]
    exact readWorker_canon device t

/-- Claim C4: in every completion order of an execution in which the read of
chunk `f` fails (and possibly others fail as well), the pipeline terminates
with `os.Exit(1)` and no chunk with index greater than `f` is ever emitted
to the output stream. -/
theorem claim_C4_fail_fast (device : List Byte) (B : Nat) (hB : 1 ≤ B)
    (o : Nat → Bool) (fails : Nat → Bool) (f : Nat) (crs rs : List Result)
    (hcrs : canonResults device B fails = some crs)
    (hf : fails f = true) (hflt : f < crs.length)
    (hperm : rs.Perm crs) :
    (runEmit o emitInit rs).aborted = true ∧
    ∀ pr ∈ (runEmit o emitInit rs).emitted, pr.1 ≤ f := by
  obtain ⟨ts, hts, htile⟩ := genTasks_spec hB device.length
  have hunf := canonResults_unfold hts hcrs
  have hlen : crs.length = ts.length := by rw [hunf]; simp
  have hfts : f < ts.length := by omega
  have hfmem : (⟨f, [], true⟩ : Result) ∈ rs := by
    rw [hperm.mem_iff, hunf]
    refine List.mem_map.mpr ⟨ts[f], List.getElem_mem hfts, ?_⟩
    have hidx := tileSpec_get_index htile f hfts
    rw [hidx, Nat.zero_add, if_pos hf]
  have habort := runEmit_aborts o rs emitInit ⟨⟨f, [], true⟩, hfmem, rfl⟩
  have hsafe : ∀ r ∈ rs, r.err = false → r.index ≠ f := by
    intro r hr herr
    rw [hperm.mem_iff, hunf] at hr
    obtain ⟨t, ht, heq⟩ := List.mem_map.mp hr
    by_cases hft : fails t.index = true
    · rw [if_pos hft] at heq
      rw [← heq] at herr
      simp at herr
    · rw [if_neg hft] at heq
      rw [← heq]
      intro hcon
      simp only at hcon
      rw [hcon] at hft
      exact hft hf
  have hfail := runEmit_failInv o f rs emitInit ⟨Nat.zero_le f, by simp [emitInit], by simp [emitInit]⟩ hsafe
  exact ⟨habort, fun pr hpr => Nat.le_of_lt (hfail.2.2 pr hpr)⟩

/-- Witness for C4: four one-byte chunks, the read of chunk 2 fails, results
arrive out of order; the run aborts and only chunks below index 2 are
emitted. -/
theorem claim_C4_witness :
    (runEmit stdoutAlwaysOk emitInit
        [⟨3, [4], false⟩, ⟨0, [1], false⟩, ⟨2, [], true⟩, ⟨1, [2], false⟩]).aborted
      = true ∧
    ∀ pr ∈ (runEmit stdoutAlwaysOk emitInit
        [⟨3, [4], false⟩, ⟨0, [1], false⟩, ⟨2, [], true⟩, ⟨1, [2], false⟩]).emitted,
      pr.1 ≤ 2 :=
  claim_C4_fail_fast [1, 2, 3, 4] 1 (by decide) stdoutAlwaysOk
    (fun i => decide (i = 2)) 2
    [⟨0, [1], false⟩, ⟨1, [2], false⟩, ⟨2, [], true⟩, ⟨3, [4], false⟩]
    [⟨3, [4], false⟩, ⟨0, [1], false⟩, ⟨2, [], true⟩, ⟨1, [2], false⟩]
    (by decide) (by decide) (by decide) (by decide)

/-! ### Stdout-independence of the reorder loop -/

theorem emitData_sameCore (o1 o2 : Nat → Bool) (s t : EmitState) (d : List Byte)
    (h : SameCore s t) : SameCore (emitData o1 s d) (emitData o2 t d) := by
  obtain ⟨h1, h2, h3, h4, h5, h6⟩ := h
  refine ⟨?_, ?_, ?_, ?_, ?_, ?_⟩ <;> simp only [emitData]
  · rw [h1]
  · exact h2
  · rw [h3, h1]
  · rw [h4]
  · rw [h5]
  · exact h6

theorem drainLoop_sameCore (o1 o2 : Nat → Bool) :
    ∀ (s t : EmitState), SameCore s t →
      SameCore (drainLoop o1 s) (drainLoop o2 t) := by
  have H : ∀ (n : Nat) (s t : EmitState), s.buffer.length ≤ n → SameCore s t →
      SameCore (drainLoop o1 s) (drainLoop o2 t) := by
    intro n
    induction n with
    | zero =>
      intro s t hlen h
      have hs : s.buffer = [] := List.length_eq_zero.mp (by omega)
      have ht : t.buffer = [] := by rw [← h.2.1, hs]
      rw [drainLoop, drainLoop]
      split
      · rename_i d hd
        rw [hs] at hd
        simp [lookupB] at hd
      · split
        · rename_i d hd
          rw [ht] at hd
          simp [lookupB] at hd
        · exact h
    | succ n ih =>
      intro s t hlen h
      have hlk : lookupB t.expected t.buffer = lookupB s.expected s.buffer := by
        rw [h.1, h.2.1]
      rw [drainLoop, drainLoop]
      split
      · rename_i d hd
        split
        · rename_i d' hd'
          rw [hlk, hd] at hd'
          cases hd'
          apply ih
          · have hlt := lookupB_eraseB_length_lt hd
            simp only [emitData]
            omega
          · apply emitData_sameCore
            exact ⟨h.1, by rw [h.2.1, h.1], h.2.2.1, h.2.2.2.1, h.2.2.2.2.1,
              h.2.2.2.2.2⟩
        · rename_i hd'
          rw [hlk, hd] at hd'
          cases hd'
      · rename_i hd
        split
        · rename_i d' hd'
          rw [hlk, hd] at hd'
          cases hd'
        · exact h
  exact fun s t h => H s.buffer.length s t le_rfl h

theorem processResult_sameCore (o1 o2 : Nat → Bool) (s t : EmitState)
    (r : Result) (h : SameCore s t) :
    SameCore (processResult o1 s r) (processResult o2 t r) := by
  rw [processResult, processResult, ← h.1]
  by_cases hidx : r.index = s.expected
  · rw [if_pos hidx, if_pos hidx]
    exact drainLoop_sameCore o1 o2 _ _ (emitData_sameCore o1 o2 s t r.data h)
  · rw [if_neg hidx, if_neg hidx]
    exact ⟨rfl, by rw [h.2.1], h.2.2.1, h.2.2.2.1, h.2.2.2.2.1, h.2.2.2.2.2⟩

theorem runEmit_sameCore (o1 o2 : Nat → Bool) :
    ∀ (rs : List Result) (s t : EmitState), SameCore s t →
      SameCore (runEmit o1 s rs) (runEmit o2 t rs) := by
  intro rs
  induction rs with
  | nil => intro s t h; exact h
  | cons r rest ih =>
    intro s t h
    rw [runEmit, runEmit]
    by_cases herr : r.err = true
    · rw [if_pos herr, if_pos herr]
      exact ⟨h.1, h.2.1, h.2.2.1, h.2.2.2.1, h.2.2.2.2.1, rfl⟩
    · rw [if_neg herr, if_neg herr]
      exact ih _ _ (processResult_sameCore o1 o2 s t r h)

theorem drainLoop_stream_neverOk (c : List Byte) :
    ∀ s, s.stream = c → (drainLoop stdoutNeverOk s).stream = c :=
  drainLoop_spec stdoutNeverOk (fun t => t.stream = c) (fun t => t.stream = c)
    (fun s d _ hs => by simp [emitData, stdoutNeverOk, hs]) (fun _ _ h => h)

theorem runEmit_stream_neverOk (c : List Byte) :
    ∀ (rs : List Result) (s : EmitState), s.stream = c →
      (runEmit stdoutNeverOk s rs).stream = c := by
  intro rs
  induction rs with
  | nil => intro s h; exact h
  | cons r rest ih =>
    intro s h
    rw [runEmit]
    by_cases herr : r.err = true
    · rw [if_pos herr]
      exact h
    · rw [if_neg herr]
      apply ih
      rw [processResult]
      by_cases hidx : r.index = s.expected
      · rw [if_pos hidx]
        exact drainLoop_stream_neverOk c _ (by simp [emitData, stdoutNeverOk, h])
      · rw [if_neg hidx]
        exact h

theorem drainLoop_aborted (o : Nat → Bool) (b : Bool) :
    ∀ s, s.aborted = b → (drainLoop o s).aborted = b :=
  drainLoop_spec o (fun t => t.aborted = b) (fun t => t.aborted = b)
    (fun s d _ hs => by simp only [emitData]; exact hs) (fun _ _ h => h)

theorem runEmit_no_err_aborted (o : Nat → Bool) :
    ∀ (rs : List Result) (s : EmitState), (∀ r ∈ rs, r.err = false) →
      (runEmit o s rs).aborted = s.aborted := by
  intro rs
  induction rs with
  | nil => intro s _; rfl
  | cons r rest ih =>
    intro s hok
    rw [runEmit]
    rw [if_neg (by rw [hok r (List.mem_cons_self _ _)]; simp)]
    rw [ih _ (fun r' hr' => hok r' (List.mem_cons_of_mem _ hr'))]
    rw [processResult]
    by_cases hidx : r.index = s.expected
    · rw [if_pos hidx]
      exact drainLoop_aborted o s.aborted _ (by simp only [emitData])
    · rw [if_neg hidx]

/-- Claim C9 (implicit): on the read path the two results of
`os.Stdout.Write` are discarded in both the immediate-emit and the drain
cases, so the loop's control state (cursor, holding map, emission log, byte
counter, abort flag) is identical under every stdout behaviour; a run whose
results are all successful never reaches `os.Exit(1)` regardless of stdout
failures (the process can exit with status 0), and under an always-failing
or closed stdout not a single byte reaches the output stream even though
the pipeline runs to completion. -/
theorem claim_C9_stdout_errors_discarded (o : Nat → Bool) (rs : List Result) :
    SameCore (runEmit o emitInit rs) (runEmit stdoutAlwaysOk emitInit rs) ∧
    ((∀ r ∈ rs, r.err = false) → (runEmit o emitInit rs).aborted = false) ∧
    (runEmit stdoutNeverOk emitInit rs).stream = [] := by
  refine ⟨?_, ?_, ?_⟩
  · exact runEmit_sameCore o stdoutAlwaysOk rs emitInit emitInit
      ⟨rfl, rfl, rfl, rfl, rfl, rfl⟩
  · intro hok
    rw [runEmit_no_err_aborted o rs emitInit hok]
    rfl
  · exact runEmit_stream_neverOk [] rs emitInit rfl

/-! ### Read-worker end-of-stream handling (C5) -/

/-- Counterexample to C5 as stated: a positioned read that hits
end-of-stream having obtained zero bytes (empty device, one byte requested)
is still reported as success — the worker checks only `err != io.EOF` — so
"success on end-of-stream only if at least one byte was obtained" is false
on the code. -/
theorem claim_C5_counterexample :
    deviceReadAt [] 0 1 = .eofShort [] ∧
    (readWorkerResult ⟨0, 0, 1⟩ (.eofShort [])).err = false ∧
    (readWorkerResult ⟨0, 0, 1⟩ (.eofShort [])).data = [] := by
  refine ⟨rfl, rfl, rfl⟩

/-- Claim C5 amended: the read worker treats end-of-stream as success
regardless of how many bytes were obtained (zero included); a full read is
likewise success; any other error produces an error result, which is fatal
for the whole pipeline the moment the reorder stage receives it; and in
every success case the emitted result carries exactly the bytes actually
obtained. -/
theorem claim_C5_read_worker (t : Task) (bytes : List Byte) (o : Nat → Bool)
    (rs : List Result) (s : EmitState)
    (hmem : readWorkerResult t .failure ∈ rs) :
    ((readWorkerResult t (.eofShort bytes)).err = false ∧
      (readWorkerResult t (.eofShort bytes)).data = bytes) ∧
    ((readWorkerResult t (.success bytes)).err = false ∧
      (readWorkerResult t (.success bytes)).data = bytes) ∧
    (readWorkerResult t .failure).err = true ∧
    (runEmit o s rs).aborted = true := by
  refine ⟨⟨rfl, rfl⟩, ⟨rfl, rfl⟩, rfl, ?_⟩
  exact runEmit_aborts o rs s ⟨readWorkerResult t .failure, hmem, rfl⟩

/-- Witness for the amended C5 at a concrete task and result list. -/
theorem claim_C5_witness :
    (readWorkerResult ⟨0, 0, 1⟩ .failure ∈
        [(⟨0, [], true⟩ : Result)]) ∧
    (runEmit stdoutAlwaysOk emitInit [(⟨0, [], true⟩ : Result)]).aborted = true :=
  ⟨by decide,
    (claim_C5_read_worker ⟨0, 0, 1⟩ [5] stdoutAlwaysOk
      [(⟨0, [], true⟩ : Result)] emitInit (by decide)).2.2.2⟩

/-! ### Device size probe (C8) -/

/-- Claim C8: the probe consults the ioctl block-capacity query first — when
it succeeds its value is used and the stat result is never consulted — it
falls back to the stat size exactly when the ioctl query fails, the whole
operation aborts exactly when both fail, and on that abort no chunk I/O is
ever issued, while a successful probe (with a positive block size) lets
every chunk read be issued. -/
theorem claim_C8_probe_fallback :
    (∀ (size : Nat) (statRes : Option Nat),
      probeTotalSize (some size) statRes = some size) ∧
    (∀ statRes : Option Nat, probeTotalSize none statRes = statRes) ∧
    (∀ ioctlRes statRes : Option Nat,
      probeTotalSize ioctlRes statRes = none ↔ ioctlRes = none ∧ statRes = none) ∧
    (∀ (device : List Byte) (B : Nat) (fails : Nat → Bool),
      readPipelineResults none none device B fails = none) ∧
    (∀ (ioctlRes statRes : Option Nat) (device : List Byte) (B : Nat)
        (fails : Nat → Bool) (S : Nat),
      probeTotalSize ioctlRes statRes = some S → 1 ≤ B →
      ∃ results, readPipelineResults ioctlRes statRes device B fails
        = some results) := by
  refine ⟨fun _ _ => rfl, fun _ => rfl, ?_, fun _ _ _ => rfl, ?_⟩
  · intro ioctlRes statRes
    cases ioctlRes <;> cases statRes <;> simp [probeTotalSize]
  · intro ioctlRes statRes device B fails S hprobe hB
    obtain ⟨ts, hts, -⟩ := genTasks_spec hB S
    refine ⟨ts.map (fun t => if fails t.index = true then readWorkerResult t .failure
      else readWorkerResult t (deviceReadAt device t.offset t.size)), ?_⟩
    rw [readPipelineResults, hprobe]
    show Option.map _ (genTasks S B) = _
    rw [hts]
    rfl

/-! ### Task generation termination and block-size validation (C10) -/

/-- Claim C10 (implicit): for every block size ≥ 1 the task-generation loop
terminates (the fuel `S`, one iteration per generated task, suffices and a
finite task list results); `main` performs no validation of the block size
— mode `read` dispatches with block size 0 just as well — and for block
size 0 on a non-empty device the loop never terminates: no amount of fuel
completes it, the offset never advances. -/
theorem claim_C10_zero_block_size :
    (∀ S B : Nat, 1 ≤ B → ∃ ts, genTasks S B = some ts) ∧
    mainDispatch "/dev/vda" "read" 0 4 = .runRead ∧
    (∀ S : Nat, 0 < S → ∀ fuel idx : Nat, genTasksFuel fuel S 0 0 idx = none) := by
  refine ⟨?_, rfl, ?_⟩
  · intro S B hB
    obtain ⟨ts, hts, -⟩ := genTasks_spec hB S
    exact ⟨ts, hts⟩
  · intro S hS fuel
    induction fuel with
    | zero =>
      intro idx
      rw [genTasksFuel, if_pos hS]
    | succ n ih =>
      intro idx
      rw [genTasksFuel]
      rw [if_pos hS]
      have hsz : (if S < 0 + 0 then S - 0 else 0) = 0 := by
        rw [if_neg (by omega)]
      simp only [hsz, Nat.add_zero]
      rw [ih (idx + 1)]
      rfl

/-! ### Write pipeline: reachability invariants -/

theorem wreach_invariant {B : Nat} {s0 s : WState} (P : WState → Prop)
    (hstep : ∀ u v, WStep B u v → P u → P v)
    (h0 : P s0) (h : WReach B s0 s) : P s := by
  induction h with
  | refl => exact h0
  | tail hr hs ih => exact hstep _ _ hs ih

theorem wstep_counter_mono {B : Nat} {s s' : WState} (h : WStep B s s') :
    s.counter ≤ s'.counter := by
  cases h <;> dsimp <;> omega

theorem wreach_counter_consumed {B : Nat} {stdin0 dev0 : List Byte} {s : WState}
    (h : WReach B (writeInit stdin0 dev0) s) :
    s.counter + s.input.length = stdin0.length := by
  refine wreach_invariant (fun u => u.counter + u.input.length = stdin0.length)
    ?_ (by simp [writeInit]) h
  intro u v hstep hu
  cases hstep with
  | driverEOF h1 h2 h3 => exact hu
  | driverShort h1 h2 h3 =>
    dsimp
    omega
  | driverFull h1 h2 =>
    dsimp
    rw [List.length_drop]
    omega
  | worker t ht => exact hu

theorem wreach_closed_input_nil {B : Nat} {stdin0 dev0 : List Byte} {s : WState}
    (h : WReach B (writeInit stdin0 dev0) s) (hc : s.inputClosed = true) :
    s.input = [] := by
  refine wreach_invariant (fun u => u.inputClosed = true → u.input = [])
    ?_ (by simp [writeInit]) h hc
  intro u v hstep hu
  cases hstep with
  | driverEOF h1 h2 h3 =>
    intro _
    exact h2
  | driverShort h1 h2 h3 =>
    intro _
    rfl
  | driverFull h1 h2 =>
    intro hcl
    dsimp at hcl
    rw [h1] at hcl
    cases hcl
  | worker t ht => exact hu

theorem wreach_device {B : Nat} {stdin0 dev0 : List Byte} {s : WState}
    (h : WReach B (writeInit stdin0 dev0) s) :
    s.device = applyWrites s.performed dev0 := by
  refine wreach_invariant (fun u => u.device = applyWrites u.performed dev0)
    ?_ (by simp [writeInit, applyWrites]) h
  intro u v hstep hu
  cases hstep with
  | driverEOF h1 h2 h3 => exact hu
  | driverShort h1 h2 h3 => exact hu
  | driverFull h1 h2 => exact hu
  | worker t ht =>
    dsimp
    rw [hu, applyWrites, applyWrites, List.foldl_append]
    rfl

/-! ### Positioned writes: pointwise characterization -/

theorem writeAt_length {dev d : List Byte} {off : Nat}
    (h : off + d.length ≤ dev.length) :
    (writeAt dev d off).length = dev.length := by
  rw [writeAt]
  simp only [List.length_append, List.length_take, List.length_drop]
  omega

theorem writeAt_getElem_out {dev d : List Byte} {off p : Nat}
    (hrange : off + d.length ≤ dev.length)
    (hnc : ¬(off ≤ p ∧ p < off + d.length)) :
    (writeAt dev d off)[p]? = dev[p]? := by
  rw [writeAt]
  have h1 : (dev.take off).length = off := by
    simp only [List.length_take]
    omega
  have h2 : (dev.take off ++ d).length = off + d.length := by
    simp only [List.length_append, h1]
  rcases Nat.lt_or_ge p off with hlt | hge
  · rw [List.getElem?_append_left (by omega), List.getElem?_append_left (by omega)]
    exact List.getElem?_take_of_lt hlt
  · have hout : off + d.length ≤ p := by omega
    rw [List.getElem?_append_right (by omega), h2, List.getElem?_drop]
    congr 1
    omega

theorem writeAt_getElem_in {dev d : List Byte} {off p : Nat}
    (hrange : off + d.length ≤ dev.length)
    (hc : off ≤ p ∧ p < off + d.length) :
    (writeAt dev d off)[p]? = d[p - off]? := by
  rw [writeAt]
  have h1 : (dev.take off).length = off := by
    simp only [List.length_take]
    omega
  have h2 : (dev.take off ++ d).length = off + d.length := by
    simp only [List.length_append, h1]
  rw [List.getElem?_append_left (by omega), List.getElem?_append_right (by omega), h1]

theorem applyWrites_spec :
    ∀ (ws : List WriteTask) (dev : List Byte),
      (∀ t ∈ ws, t.offset + t.data.length ≤ dev.length) → ws.Nodup →
      ((applyWrites ws dev).length = dev.length ∧
       (∀ p, (∀ t ∈ ws, ¬(t.offset ≤ p ∧ p < t.offset + t.data.length)) →
         (applyWrites ws dev)[p]? = dev[p]?) ∧
       (∀ p t, t ∈ ws → (t.offset ≤ p ∧ p < t.offset + t.data.length) →
         (∀ u ∈ ws, u ≠ t → ¬(u.offset ≤ p ∧ p < u.offset + u.data.length)) →
         (applyWrites ws dev)[p]? = t.data[p - t.offset]?)) := by
  intro ws
  induction ws with
  | nil =>
    intro dev _ _
    refine ⟨rfl, fun p _ => rfl, fun p t ht => absurd ht (by simp)⟩
  | cons t0 ws ih =>
    intro dev hrange hnodup
    have h0 : t0.offset + t0.data.length ≤ dev.length :=
      hrange t0 (List.mem_cons_self _ _)
    have hlen0 : (writeAt dev t0.data t0.offset).length = dev.length :=
      writeAt_length h0
    have hrange' : ∀ t ∈ ws,
        t.offset + t.data.length ≤ (writeAt dev t0.data t0.offset).length := by
      rw [hlen0]
      exact fun t ht => hrange t (List.mem_cons_of_mem _ ht)
    have hnotmem := (List.nodup_cons.mp hnodup).1
    obtain ⟨ihlen, ihout, ihin⟩ :=
      ih (writeAt dev t0.data t0.offset) hrange' (List.nodup_cons.mp hnodup).2
    have happly : applyWrites (t0 :: ws) dev
        = applyWrites ws (writeAt dev t0.data t0.offset) := rfl
    refine ⟨?_, ?_, ?_⟩
    · rw [happly, ihlen, hlen0]
    · intro p hnc
      rw [happly, ihout p (fun t ht => hnc t (List.mem_cons_of_mem _ ht)),
        writeAt_getElem_out h0 (hnc t0 (List.mem_cons_self _ _))]
    · intro p t ht hc huniq
      rcases List.mem_cons.mp ht with rfl | htm
      · have hnc : ∀ u ∈ ws, ¬(u.offset ≤ p ∧ p < u.offset + u.data.length) := by
          intro u hu
          refine huniq u (List.mem_cons_of_mem _ hu) ?_
          intro he
          exact hnotmem (he ▸ hu)
        rw [happly, ihout p hnc, writeAt_getElem_in h0 hc]
      · rw [happly]
        exact ihin p t htm hc
          (fun u hu hne => huniq u (List.mem_cons_of_mem _ hu) hne)

/-! ### Driver chunking: existence, disjointness and coverage -/

theorem splitStdin_exists {B : Nat} (hB : 1 ≤ B) :
    ∀ (n : Nat) (input : List Byte) (idx off : Nat), input.length ≤ n →
      ∃ ts, splitStdin B input idx off = some ts := by
  intro n
  induction n with
  | zero =>
    intro input idx off hlen
    have hnil : input = [] := List.length_eq_zero.mp (by omega)
    subst hnil
    exact ⟨[], by rw [splitStdin]⟩
  | succ n ih =>
    intro input idx off hlen
    cases input with
    | nil => exact ⟨[], by rw [splitStdin]⟩
    | cons a l =>
      by_cases hshort : (a :: l).length < B
      · refine ⟨[⟨idx, off, a :: l⟩], ?_⟩
        rw [splitStdin, if_pos hshort]
      · obtain ⟨rest, hrest⟩ := ih ((a :: l).drop B) (idx + 1) (off + B) (by
          simp only [List.length_drop, List.length_cons] at *
          omega)
        refine ⟨⟨idx, off, (a :: l).take B⟩ :: rest, ?_⟩
        rw [splitStdin, if_neg hshort, if_neg (by omega : ¬ B = 0), hrest]
        rfl

theorem splitStdin_spec {B : Nat} (hB : 1 ≤ B) :
    ∀ (n : Nat) (input : List Byte) (idx off : Nat), input.length ≤ n →
    ∀ ts, splitStdin B input idx off = some ts →
      (∀ t ∈ ts, 0 < t.data.length ∧ off ≤ t.offset ∧
        t.offset + t.data.length ≤ off + input.length) ∧
      ts.Pairwise (fun t u => t.offset + t.data.length ≤ u.offset) ∧
      (∀ p, p < input.length → ∃ t ∈ ts,
        (t.offset ≤ off + p ∧ off + p < t.offset + t.data.length) ∧
        t.data[off + p - t.offset]? = input[p]?) := by
  intro n
  induction n with
  | zero =>
    intro input idx off hlen ts hts
    have hnil : input = [] := List.length_eq_zero.mp (by omega)
    subst hnil
    rw [splitStdin] at hts
    cases hts
    exact ⟨by simp, by simp, by simp⟩
  | succ n ih =>
    intro input idx off hlen ts hts
    cases input with
    | nil =>
      rw [splitStdin] at hts
      cases hts
      exact ⟨by simp, by simp, by simp⟩
    | cons a l =>
      by_cases hshort : (a :: l).length < B
      · rw [splitStdin, if_pos hshort] at hts
        cases hts
        refine ⟨?_, by simp, ?_⟩
        · intro t ht
          rcases List.mem_singleton.mp ht with rfl
          exact ⟨by simp, Nat.le_refl _, Nat.le_refl _⟩
        · intro p hp
          refine ⟨⟨idx, off, a :: l⟩, List.mem_singleton_self _,
            ⟨Nat.le_add_right _ _, by dsimp; simp only [List.length_cons] at *; omega⟩, ?_⟩
          dsimp
          have he : off + p - off = p := by omega
          rw [he]
      · rw [splitStdin, if_neg hshort, if_neg (by omega : ¬ B = 0)] at hts
        cases hrest : splitStdin B ((a :: l).drop B) (idx + 1) (off + B) with
        | none =>
          rw [hrest] at hts
          cases hts
        | some rest =>
          rw [hrest] at hts
          cases hts
          have hlen2 : B ≤ (a :: l).length := by omega
          have htklen : ((a :: l).take B).length = B := by
            simp only [List.length_take]
            omega
          have hdroplen : ((a :: l).drop B).length = (a :: l).length - B := by
            simp only [List.length_drop]
          obtain ⟨ihmem, ihpair, ihcov⟩ := ih ((a :: l).drop B) (idx + 1) (off + B)
            (by simp only [List.length_drop, List.length_cons] at *; omega) rest hrest
          refine ⟨?_, ?_, ?_⟩
          · intro t ht
            rcases List.mem_cons.mp ht with rfl | htm
            · exact ⟨by dsimp; simp only [List.length_cons] at *; omega,
                Nat.le_refl _, by dsimp; simp only [List.length_cons] at *; omega⟩
            · obtain ⟨hh1, hh2, hh3⟩ := ihmem t htm
              exact ⟨hh1, by omega, by omega⟩
          · refine List.pairwise_cons.mpr ⟨?_, ihpair⟩
            intro u hu
            have := (ihmem u hu).2.1
            dsimp
            omega
          · intro p hp
            rcases Nat.lt_or_ge p B with hpB | hpB
            · refine ⟨⟨idx, off, (a :: l).take B⟩, List.mem_cons_self _ _,
                ⟨Nat.le_add_right _ _, by dsimp; omega⟩, ?_⟩
              dsimp
              have he : off + p - off = p := by omega
              rw [he, List.getElem?_take_of_lt hpB]
            · obtain ⟨t, htm, ⟨c1, c2⟩, hdata⟩ := ihcov (p - B) (by omega)
              have he2 : off + B + (p - B) = off + p := by omega
              rw [he2] at c1 c2 hdata
              refine ⟨t, List.mem_cons_of_mem _ htm, ⟨c1, c2⟩, ?_⟩
              rw [hdata, List.getElem?_drop]
              congr 1
              omega

theorem splitStdin_nodup {B : Nat} (hB : 1 ≤ B) {input : List Byte}
    {idx off : Nat} {ts : List WriteTask}
    (hts : splitStdin B input idx off = some ts) : ts.Nodup := by
  obtain ⟨hmem, hpair, -⟩ :=
    splitStdin_spec hB input.length input idx off le_rfl ts hts
  have hlt : (ts.map WriteTask.offset).Pairwise (· < ·) := by
    rw [List.pairwise_map]
    refine hpair.imp_of_mem ?_
    intro a b ha hb hab
    have := (hmem a ha).1
    omega
  have hne : (ts.map WriteTask.offset).Nodup := hlt.imp (fun h => Nat.ne_of_lt h)
  exact hne.of_map _

theorem applyWrites_perm_splitStdin {B : Nat} (hB : 1 ≤ B) (stdin0 : List Byte)
    {allTs ws : List WriteTask}
    (hsplit : splitStdin B stdin0 0 0 = some allTs)
    (hperm : ws.Perm allTs) {dev0 : List Byte}
    (hdev : dev0.length = stdin0.length) :
    applyWrites ws dev0 = stdin0 := by
  obtain ⟨hmem, hpair, hcov⟩ :=
    splitStdin_spec hB stdin0.length stdin0 0 0 le_rfl allTs hsplit
  have hnodupAll : allTs.Nodup := splitStdin_nodup hB hsplit
  have hnodup : ws.Nodup := (hperm.nodup_iff).mpr hnodupAll
  have hrange : ∀ t ∈ ws, t.offset + t.data.length ≤ dev0.length := by
    intro t ht
    have h := (hmem t (hperm.mem_iff.mp ht)).2.2
    omega
  obtain ⟨hlen, hout, hin⟩ := applyWrites_spec ws dev0 hrange hnodup
  have hsympair : allTs.Pairwise (fun x y =>
      x.offset + x.data.length ≤ y.offset ∨ y.offset + y.data.length ≤ x.offset) :=
    hpair.imp (fun h => Or.inl h)
  have hforall := hsympair.forall (fun x y h => h.symm)
  apply List.ext_getElem?
  intro p
  rcases Nat.lt_or_ge p stdin0.length with hp | hp
  · obtain ⟨t, htAll, hcab, hdata⟩ := hcov p hp
    rw [Nat.zero_add] at hcab hdata
    have huniq : ∀ u ∈ ws, u ≠ t →
        ¬(u.offset ≤ p ∧ p < u.offset + u.data.length) := by
      intro u hu hne
      have huAll : u ∈ allTs := hperm.mem_iff.mp hu
      have hR := hforall huAll htAll hne
      rcases hR with h | h
      · intro hcu
        omega
      · intro hcu
        omega
    rw [hin p t (hperm.mem_iff.mpr htAll) hcab huniq, hdata]
  · rw [List.getElem?_eq_none (by omega), List.getElem?_eq_none (by omega)]

/-! ### Write pipeline: the task-production invariant -/

theorem perm_middle_singleton {α : Type} (xs ys : List α) (t : α) :
    ((xs ++ [t]) ++ ys).Perm ((xs ++ ys) ++ [t]) := by
  rw [List.append_assoc, List.append_assoc]
  exact List.Perm.append_left xs List.perm_append_comm

theorem wstep_tasksInv {B : Nat} (hB : 1 ≤ B) (stdin0 : List Byte)
    {u v : WState} (hstep : WStep B u v) (hinv : WTasksInv B stdin0 u) :
    WTasksInv B stdin0 v := by
  obtain ⟨future, hfut, hclosed, done, hall, hpermq⟩ := hinv
  cases hstep with
  | driverEOF h1 h2 h3 =>
    have hfe : future = [] := by
      rw [h2, splitStdin] at hfut
      cases hfut
      rfl
    refine ⟨future, ?_, fun _ => hfe, done, hall, ?_⟩
    · show splitStdin B u.input u.index u.offset = some future
      exact hfut
    · exact hpermq
  | driverShort h1 h2 h3 =>
    have hne : u.input ≠ [] := by
      intro hc
      rw [hc] at h2
      cases h2
    obtain ⟨a, l, hal⟩ := List.exists_cons_of_ne_nil hne
    rw [hal, splitStdin, if_pos (by rw [← hal]; exact h3)] at hfut
    cases hfut
    rw [← hal] at hall
    refine ⟨[], ?_, fun _ => rfl, done ++ [⟨u.index, u.offset, u.input⟩], ?_, ?_⟩
    · show splitStdin B [] (u.index) (u.offset) = some []
      rw [splitStdin]
    · rw [List.append_nil]
      exact hall
    · show ((u.queue ++ [(⟨u.index, u.offset, u.input⟩ : WriteTask)]) ++ u.performed).Perm
        (done ++ [(⟨u.index, u.offset, u.input⟩ : WriteTask)])
      exact (perm_middle_singleton u.queue u.performed _).trans
        (hpermq.append_right _)
  | driverFull h1 h2 =>
    have hne : u.input ≠ [] := by
      intro hc
      rw [hc] at h2
      simp at h2
      omega
    obtain ⟨a, l, hal⟩ := List.exists_cons_of_ne_nil hne
    rw [hal, splitStdin, if_neg (by rw [← hal]; omega),
      if_neg (by omega : ¬ B = 0)] at hfut
    cases hrest : splitStdin B ((a :: l).drop B) (u.index + 1) (u.offset + B) with
    | none =>
      rw [hrest] at hfut
      cases hfut
    | some rest =>
      rw [hrest] at hfut
      cases hfut
      refine ⟨rest, ?_, ?_, done ++ [⟨u.index, u.offset, u.input.take B⟩], ?_, ?_⟩
      · show splitStdin B (u.input.drop B) (u.index + 1) (u.offset + B) = some rest
        rw [hal]
        exact hrest
      · intro hc
        have hc2 : u.inputClosed = true := hc
        rw [h1] at hc2
        cases hc2
      · rw [hal, List.append_assoc]
        rw [← hal] at hall
        rw [hal] at hall
        simpa using hall
      · show ((u.queue ++ [(⟨u.index, u.offset, u.input.take B⟩ : WriteTask)])
            ++ u.performed).Perm
          (done ++ [(⟨u.index, u.offset, u.input.take B⟩ : WriteTask)])
        exact (perm_middle_singleton u.queue u.performed _).trans
          (hpermq.append_right _)
  | worker t ht =>
    refine ⟨future, hfut, hclosed, done, hall, ?_⟩
    show (u.queue.erase t ++ (u.performed ++ [t])).Perm done
    have hassoc : u.queue.erase t ++ (u.performed ++ [t])
        = (u.queue.erase t ++ u.performed) ++ [t] := by
      rw [List.append_assoc]
    rw [hassoc]
    refine ((List.perm_append_singleton _ _).trans ?_).trans hpermq
    exact (List.perm_cons_erase ht).symm.append_right _

theorem wreach_tasksInv {B : Nat} (hB : 1 ≤ B) {stdin0 dev0 : List Byte}
    {allTs : List WriteTask} (hsplit : splitStdin B stdin0 0 0 = some allTs)
    {s : WState} (h : WReach B (writeInit stdin0 dev0) s) :
    WTasksInv B stdin0 s := by
  refine wreach_invariant (WTasksInv B stdin0)
    (fun u v hstep hu => wstep_tasksInv hB stdin0 hstep hu) ?_ h
  refine ⟨allTs, ?_, ?_, [], ?_, ?_⟩
  · exact hsplit
  · intro hc
    exact absurd hc (by simp [writeInit])
  · rw [List.nil_append]
    exact hsplit
  · exact List.Perm.refl _

/-- Claim C1: round-trip fidelity.  For every device content, every block
size ≥ 1 and every completion order on each side — an arbitrary permutation
of the read results, and an arbitrary interleaving of the write pipeline's
driver and workers, which together subsume every worker count ≥ 1 on both
sides — replaying the read pipeline's output stream through the write
pipeline into a fresh zero-filled device of the same size reproduces the
original device content byte for byte. -/
theorem claim_C1_round_trip (device : List Byte) (B : Nat) (hB : 1 ≤ B)
    (crs rs : List Result)
    (hcrs : canonResults device B noFail = some crs)
    (hperm : rs.Perm crs) (s : WState)
    (hreach : WReach B (writeInit ((runEmit stdoutAlwaysOk emitInit rs).stream)
        (List.replicate device.length 0)) s)
    (hdone : WDone s) :
    s.device = device := by
  have hstream := canon_run_stream device B hB crs rs hcrs hperm
  rw [hstream] at hreach
  obtain ⟨allTs, hsplit⟩ := splitStdin_exists hB device.length device 0 0 le_rfl
  have htinv := wreach_tasksInv hB hsplit hreach
  obtain ⟨future, hfut, hclosed, done, hall, hpermq⟩ := htinv
  obtain ⟨hcl, hq⟩ := hdone
  have hfe : future = [] := hclosed hcl
  subst hfe
  rw [List.append_nil, hsplit] at hall
  cases hall
  rw [hq, List.nil_append] at hpermq
  have hdev := wreach_device hreach
  rw [hdev]
  exact applyWrites_perm_splitStdin hB device hsplit hpermq (by simp)

/-- Witness for C1: device `[3, 5]`, block size 1, read results completing
in reverse order, write units performed in reverse order; the fresh device
ends up byte-identical to the original. -/
theorem claim_C1_witness :
    ∃ s : WState, WDone s ∧
      WReach 1 (writeInit ((runEmit stdoutAlwaysOk emitInit
        [⟨1, [5], false⟩, ⟨0, [3], false⟩]).stream) (List.replicate 2 0)) s ∧
      s.device = [3, 5] := by
  have hstream : (runEmit stdoutAlwaysOk emitInit
      [⟨1, [5], false⟩, ⟨0, [3], false⟩]).stream = [3, 5] :=
    canon_run_stream [3, 5] 1 (by decide)
      [⟨0, [3], false⟩, ⟨1, [5], false⟩] [⟨1, [5], false⟩, ⟨0, [3], false⟩]
      (by decide) (by decide)
  have hreach := (((((@WReach.refl 1 (writeInit [3, 5] (List.replicate 2 0))).tail
      (WStep.driverFull _ rfl (by decide))).tail
      (WStep.driverFull _ rfl (by decide))).tail
      (WStep.driverEOF _ rfl rfl (by decide))).tail
      (WStep.worker _ ⟨1, 1, [5]⟩ (by decide))).tail
      (WStep.worker _ ⟨0, 0, [3]⟩ (by decide))
  refine ⟨_, ?_, by rw [hstream]; exact hreach, ?_⟩
  · exact ⟨by decide, by decide⟩
  · exact claim_C1_round_trip [3, 5] 1 (by decide)
      [⟨0, [3], false⟩, ⟨1, [5], false⟩] [⟨1, [5], false⟩, ⟨0, [3], false⟩]
      (by decide) (by decide) _ (by rw [hstream]; exact hreach)
      ⟨by decide, by decide⟩

/-! ### Counter lemmas for the reorder loop -/

theorem processResult_aborted (o : Nat → Bool) (s : EmitState) (r : Result) :
    (processResult o s r).aborted = s.aborted := by
  rw [processResult]
  by_cases hidx : r.index = s.expected
  · rw [if_pos hidx]
    exact drainLoop_aborted o s.aborted _ rfl
  · rw [if_neg hidx]

theorem drainLoop_counter_le (o : Nat → Bool) (c : Nat) :
    ∀ s, c ≤ s.counter → c ≤ (drainLoop o s).counter :=
  drainLoop_spec o (fun t => c ≤ t.counter) (fun t => c ≤ t.counter)
    (fun s d _ hs => by simp only [emitData]; omega) (fun _ _ h => h)

theorem runEmit_counter_le (o : Nat → Bool) :
    ∀ (rs : List Result) (s : EmitState), s.counter ≤ (runEmit o s rs).counter := by
  intro rs
  induction rs with
  | nil => intro s; exact le_rfl
  | cons r rest ih =>
    intro s
    rw [runEmit]
    by_cases herr : r.err = true
    · rw [if_pos herr]
    · rw [if_neg herr]
      refine le_trans ?_ (ih (processResult o s r))
      rw [processResult]
      by_cases hidx : r.index = s.expected
      · rw [if_pos hidx]
        exact drainLoop_counter_le o s.counter _ (by simp only [emitData]; omega)
      · rw [if_neg hidx]

theorem runEmit_append (o : Nat → Bool) :
    ∀ (l1 l2 : List Result) (s : EmitState),
      (∀ r ∈ l1, r.err = false) →
      runEmit o s (l1 ++ l2) = runEmit o (runEmit o s l1) l2 := by
  intro l1
  induction l1 with
  | nil => intro l2 s _; rfl
  | cons r rest ih =>
    intro l2 s hok
    have herr : r.err = false := hok r (List.mem_cons_self _ _)
    rw [List.cons_append, runEmit, runEmit, if_neg (by rw [herr]; simp),
      if_neg (by rw [herr]; simp)]
    exact ih l2 _ (fun r' hr' => hok r' (List.mem_cons_of_mem _ hr'))

theorem sum_map_range_mono (f : Nat → Nat) :
    ∀ (e N : Nat), e ≤ N →
      ((List.range e).map f).sum ≤ ((List.range N).map f).sum := by
  intro e N
  induction N with
  | zero =>
    intro h
    have he : e = 0 := by omega
    subst he
    exact le_rfl
  | succ n ih =>
    intro h
    rcases Nat.lt_or_ge e (n + 1) with hlt | hge
    · refine le_trans (ih (by omega)) ?_
      rw [List.range_succ, List.map_append, List.sum_append]
      simp
    · have he : e = n + 1 := by omega
      subst he
      exact le_rfl

theorem taskData_length {device : List Byte} {B : Nat} {ts : List Task}
    (htile : TileSpec device.length B 0 0 ts) :
    ∀ (k : Nat) (hk : k < ts.length), (taskData device ts k).length = ts[k].size := by
  intro k hk
  rw [taskData, List.getElem?_eq_getElem hk]
  show (chunkData device ts[k]).length = ts[k].size
  rw [chunkData]
  have hb := tileSpec_size_bound htile ts[k] (List.getElem_mem hk)
  simp only [List.length_take, List.length_drop]
  omega

theorem taskData_total {device : List Byte} {B : Nat} {ts : List Task}
    (htile : TileSpec device.length B 0 0 ts) :
    ((List.range ts.length).map (fun i => (taskData device ts i).length)).sum
      = device.length := by
  have h1 : (List.range ts.length).map (fun i => (taskData device ts i).length)
      = ts.map (fun t => (chunkData device t).length) := by
    calc (List.range ts.length).map (fun i => (taskData device ts i).length)
        = ((List.range ts.length).map (taskData device ts)).map List.length := by
          rw [List.map_map]
          rfl
      _ = (ts.map (chunkData device)).map List.length := by
          rw [map_range_taskData]
      _ = ts.map (fun t => (chunkData device t).length) := by
          rw [List.map_map]
          rfl
  rw [h1]
  have h3 : (ts.map (chunkData device)).flatten.length = device.length := by
    rw [tileSpec_flatten device rfl htile, List.drop_zero]
  rw [← h3, List.length_flatten, List.map_map]
  rfl

theorem processResult_counter_delta (o : Nat → Bool) (s : EmitState) (r : Result) :
    (processResult o s r).counter
      = s.counter + ((((processResult o s r).emitted).drop s.emitted.length).map
          (fun pr => pr.2.length)).sum := by
  rw [processResult]
  by_cases hidx : r.index = s.expected
  · rw [if_pos hidx]
    have hspec := drainLoop_spec o
      (fun t => t.counter = s.counter
          + (((t.emitted).drop s.emitted.length).map (fun pr => pr.2.length)).sum
        ∧ s.emitted.length ≤ t.emitted.length)
      (fun t => t.counter = s.counter
          + (((t.emitted).drop s.emitted.length).map (fun pr => pr.2.length)).sum)
      ?_ (fun _ _ h => h.1) (emitData o s r.data) ?_
    · exact hspec
    · intro t d hd ht
      obtain ⟨h1, h2⟩ := ht
      constructor
      · simp only [emitData]
        rw [List.drop_append_of_le_length h2, List.map_append, List.sum_append]
        simp only [List.map_cons, List.map_nil, List.sum_cons, List.sum_nil]
        omega
      · simp only [emitData, List.length_append]
        omega
    · constructor
      · simp only [emitData]
        rw [List.drop_append_of_le_length le_rfl, List.drop_length]
        simp
      · simp only [emitData, List.length_append]
        omega
  · rw [if_neg hidx]
    show s.counter = s.counter + ((s.emitted.drop s.emitted.length).map
      (fun pr => pr.2.length)).sum
    rw [List.drop_length]
    simp

/-- Counterexample to C7 as stated: on the write path the counter is not
updated by the write workers after each positioned write — after one driver
step on a one-byte device with stdin `[7]`, the counter is already 1 while
no positioned write has been performed at all (the device is untouched and
`performed` is empty, the unit still sits in the queue). -/
theorem claim_C7_counterexample :
    ∃ s : WState, WReach 1 (writeInit [7] [0]) s ∧
      s.counter = 1 ∧ s.performed = [] ∧ s.device = [0] ∧ s.queue ≠ [] := by
  refine ⟨_, (@WReach.refl 1 (writeInit [7] [0])).tail
    (WStep.driverFull _ rfl (by decide)), by decide, by decide, by decide,
    by decide⟩

/-- Claim C7 amended: the cumulative counter has a single update path on
each side, but on the write path that path is the pipeline driver, not the
workers: every step that changes the counter is a driver step, which
enqueues exactly one write unit and adds that unit's payload length while
performing no device write; every step that performs a positioned write (a
worker step, recognizable by extending `performed`) leaves the counter
unchanged; and on the read path the counter changes exactly when the
reorder/emit stage emits, by exactly the lengths of the newly emitted
payloads. -/
theorem claim_C7_counter_update_paths :
    (∀ (B : Nat) (s s' : WState), WStep B s s' →
      s'.counter = s.counter ∨
      (s'.device = s.device ∧ s'.performed = s.performed ∧
        ∃ t, s'.queue = s.queue ++ [t] ∧ s'.counter = s.counter + t.data.length)) ∧
    (∀ (B : Nat) (s s' : WState), WStep B s s' → s'.performed ≠ s.performed →
      s'.counter = s.counter) ∧
    (∀ (o : Nat → Bool) (s : EmitState) (r : Result),
      (processResult o s r).counter
        = s.counter + ((((processResult o s r).emitted).drop s.emitted.length).map
            (fun pr => pr.2.length)).sum) := by
  refine ⟨?_, ?_, fun o s r => processResult_counter_delta o s r⟩
  · intro B s s' h
    cases h with
    | driverEOF h1 h2 h3 => exact Or.inl rfl
    | driverShort h1 h2 h3 =>
      exact Or.inr ⟨rfl, rfl, ⟨s.index, s.offset, s.input⟩, rfl, rfl⟩
    | driverFull h1 h2 =>
      refine Or.inr ⟨rfl, rfl, ⟨s.index, s.offset, s.input.take B⟩, rfl, ?_⟩
      show s.counter + B = s.counter + (s.input.take B).length
      rw [List.length_take, Nat.min_eq_left h2]
    | worker t ht => exact Or.inl rfl
  · intro B s s' h hne
    cases h with
    | driverEOF h1 h2 h3 => rfl
    | driverShort h1 h2 h3 => exact absurd rfl hne
    | driverFull h1 h2 => exact absurd rfl hne
    | worker t ht => rfl

/-- Counterexample to C6 as stated: on the write path the counter tracks
bytes consumed from stdin, not bytes written to the device.  With a 1-byte
device (probed size 1) and two bytes on stdin the counter reaches 2 > 1;
and with one byte on stdin the counter already equals the probed size
while the write unit is still queued — strictly before successful
completion. -/
theorem claim_C6_counterexample :
    (∃ s : WState, WReach 1 (writeInit [7, 7] [0]) s ∧ 1 < s.counter) ∧
    (∃ s : WState, WReach 1 (writeInit [7] [0]) s ∧ s.counter = 1 ∧
      s.queue ≠ []) := by
  constructor
  · refine ⟨_, ((@WReach.refl 1 (writeInit [7, 7] [0])).tail
      (WStep.driverFull _ rfl (by decide))).tail
      (WStep.driverFull _ rfl (by decide)), ?_⟩
    decide
  · refine ⟨_, (@WReach.refl 1 (writeInit [7] [0])).tail
      (WStep.driverFull _ rfl (by decide)), ?_, ?_⟩
    · decide
    · decide

/-- Claim C6 amended: the cumulative counter is non-decreasing on both
paths.  On the read path it never exceeds the device size, is strictly
below it while any result is still unprocessed, and equals it exactly at
successful completion.  On the write path it equals the bytes consumed
from stdin — so it reaches the stdin length as soon as the driver closes
the task channel (possibly before the writes complete), and it stays
within the device size whenever the input stream is no longer than the
device (in particular in the intended use, a device-sized input). -/
theorem claim_C6_counter_behaviour :
    (∀ (device : List Byte) (B : Nat), 1 ≤ B →
      ∀ crs rs : List Result, canonResults device B noFail = some crs →
        rs.Perm crs → ∀ (o : Nat → Bool) (k : Nat),
        ((runEmit o emitInit (rs.take k)).counter
            ≤ (runEmit o emitInit (rs.take (k + 1))).counter) ∧
        (runEmit o emitInit (rs.take k)).counter ≤ device.length ∧
        (k < rs.length →
          (runEmit o emitInit (rs.take k)).counter < device.length) ∧
        (runEmit o emitInit rs).counter = device.length) ∧
    (∀ (B : Nat) (s s' : WState), WStep B s s' → s.counter ≤ s'.counter) ∧
    (∀ (B : Nat) (stdin0 dev0 : List Byte) (s : WState),
      WReach B (writeInit stdin0 dev0) s →
      s.counter + s.input.length = stdin0.length ∧
      (s.inputClosed = true → s.counter = stdin0.length) ∧
      (stdin0.length ≤ dev0.length → s.counter ≤ dev0.length)) := by
  refine ⟨?_, fun B s s' h => wstep_counter_mono h, ?_⟩
  · intro device B hB crs rs hcrs hperm o k
    obtain ⟨ts, hts, htile, hcrs2, hexp, hbuf, hemit, hcount, habort⟩ :=
      canon_run_facts device B hB crs rs hcrs hperm o
    subst hcrs2
    have hok : ∀ r ∈ rs, r.err = false ∧ r.data = taskData device ts r.index := by
      intro r hr
      exact canon_mem htile r (hperm.mem_iff.mp hr)
    have hoks : ∀ r ∈ rs, r.err = false := fun r hr => (hok r hr).1
    have hmapidx := @canon_map_index device.length B device ts htile
    have hnodup : (rs.map Result.index).Nodup := by
      rw [(hperm.map Result.index).nodup_iff, hmapidx]
      exact List.nodup_range _
    have hN : rs.length = ts.length := by
      have h1 := hperm.length_eq
      simpa using h1
    have htot := taskData_total htile
    have hpre : ∀ j : Nat,
        (runEmit o emitInit (rs.take j)).counter
          = ((List.range (runEmit o emitInit (rs.take j)).expected).map
              (fun i => (taskData device ts i).length)).sum
        ∧ (runEmit o emitInit (rs.take j)).expected ≤ ts.length
        ∧ (runEmit o emitInit (rs.take j)).expected ≤ j := by
      intro j
      have hnodup_pre : ((rs.take j).map Result.index).Nodup := by
        rw [List.map_take]
        exact (List.take_sublist j (rs.map Result.index)).nodup hnodup
      have hinit : EmitInv (taskData device ts) (fun _ => False) emitInit := by
        refine ⟨?_, ?_, ?_, ?_, rfl, rfl, rfl, rfl⟩ <;> simp [emitInit]
      have hfin := runEmit_inv o (taskData device ts) (rs.take j) _ emitInit hinit
        (fun r hr => ⟨(hok r (List.take_subset _ _ hr)).1,
          (hok r (List.take_subset _ _ hr)).2, not_false⟩) hnodup_pre
      obtain ⟨hbufj, hnodupj, hbelowj, hcoverj, hemitj, hcountj, hattj, habortj⟩ :=
        hfin
      have hsub : (List.range (runEmit o emitInit (rs.take j)).expected)
          ⊆ (rs.take j).map Result.index := by
        intro i hi
        exact ((hbelowj i (List.mem_range.mp hi)).resolve_right not_false)
      have hlenle := ((List.nodup_range _).subperm hsub).length_le
      rw [List.length_range, List.length_map] at hlenle
      refine ⟨hcountj, ?_, ?_⟩
      · refine le_trans hlenle ?_
        calc (rs.take j).length ≤ rs.length := by
              rw [List.length_take]
              omega
          _ = ts.length := hN
      · refine le_trans hlenle ?_
        rw [List.length_take]
        omega
    refine ⟨?_, ?_, ?_, ?_⟩
    · have hsplit2 : rs.take (k + 1) = rs.take k ++ (rs.drop k).take 1 :=
        List.take_add rs k 1
      rw [hsplit2, runEmit_append o _ _ _
        (fun r hr => hoks r (List.take_subset _ _ hr))]
      exact runEmit_counter_le o _ _
    · obtain ⟨hcountj, hexpN, -⟩ := hpre k
      rw [hcountj, ← htot]
      exact sum_map_range_mono _ _ _ hexpN
    · intro hk
      obtain ⟨hcountj, hexpN, hexpj⟩ := hpre k
      have heN : (runEmit o emitInit (rs.take k)).expected < ts.length := by
        omega
      have hpos : 0 < (taskData device ts
          ((runEmit o emitInit (rs.take k)).expected)).length := by
        rw [taskData_length htile _ heN]
        exact (tileSpec_size_bound htile _ (List.getElem_mem heN)).1
      have hstep : ((List.range ((runEmit o emitInit (rs.take k)).expected + 1)).map
            (fun i => (taskData device ts i).length)).sum
          ≤ ((List.range ts.length).map
            (fun i => (taskData device ts i).length)).sum :=
        sum_map_range_mono _ _ _ (by omega)
      have hsucc : ((List.range ((runEmit o emitInit (rs.take k)).expected + 1)).map
            (fun i => (taskData device ts i).length)).sum
          = ((List.range ((runEmit o emitInit (rs.take k)).expected)).map
              (fun i => (taskData device ts i).length)).sum
            + (taskData device ts
                ((runEmit o emitInit (rs.take k)).expected)).length := by
        rw [List.range_succ, List.map_append, List.sum_append]
        simp
      rw [hcountj]
      omega
    · rw [hcount]
      exact htot
  · intro B stdin0 dev0 s hreach
    have h1 := wreach_counter_consumed hreach
    refine ⟨h1, ?_, ?_⟩
    · intro hc
      have h2 := wreach_closed_input_nil hreach hc
      rw [h2] at h1
      simpa using h1
    · intro hlen
      omega

end AcceleratedBackup
